import Mathlib

/-!
Verification development for the CarConnectivity core data model
(observable.py, attributes.py, objects.py, units.py, command_impl.py).

The Python classes are shallowly embedded as pure Lean functions:
  * event flag sets (`Observable.ObserverEvent`, a 5-bit `Flag`) become
    `Nat` bit masks;
  * the observer registry becomes a list of `ObserverEntry` records;
  * `Observable.notify` / `delay_notifications` / `transaction_end` become
    pure state transformers on an `Obs` record that additionally return the
    list of observer invocations they perform;
  * the enabled/disabled flags of the object tree become a `List Bool`
    indexed by node number, with the parent relation given by a `Tree`
    record (parents have smaller indices, which is the well-foundedness of
    the acyclic parent chain of the Python object graph);
  * `GenericAttribute._set_value` becomes `setValue` acting on an
    `AttrRec` record (value, unit, four timestamps) plus the tree state;
  * unit conversion functions become functions on `Option ℚ`
    (Python floats are modelled as exact rationals);
  * `ClimatizationStartStopCommand`'s value setter becomes a tokenizer and
    recursive-descent model of the declared argparse grammar.

Timestamps are modelled as `Option Int` (`None` vs a datetime, only the
order of datetimes matters to the code under study).
-/

/-! ## Event flag bit masks (observable.py, `Observable.ObserverEvent`)

`Flag` with `auto()` members in declaration order:
ENABLED = 1, DISABLED = 2, VALUE_CHANGED = 4, UPDATED = 8,
UPDATED_NEW_MEASUREMENT = 16, ALL = 31, NONE = 0. -/

def evEnabled : Nat := 1

def evDisabled : Nat := 2

def evValueChanged : Nat := 4

def evUpdated : Nat := 8

def evUpdatedNewMeasurement : Nat := 16

def evAll : Nat := 31

/-! ## Observer registry (observable.py lines 55-127)

An observer registration is the tuple
`(callback, event_mask, priority, on_transaction_end)` stored in the
`__observers` set.  Callbacks are identified by a `Nat` tag.  Priorities
are the `ObserverPriority` integers 1..8. -/

structure ObserverEntry where
  cb : Nat
  mask : Nat
  prio : Nat
  onTransEnd : Bool
  deriving DecidableEq, Repr

/-- `Observable.remove_observer` (observable.py lines 73-86).  The Python
body is
`set(filter(lambda e: e[0] == observer or (flag is not None and e[1] == flag), observers))`
i.e. the new observer set is the set of entries *satisfying* the
predicate. -/
def removeObserver (observers : List ObserverEntry) (observer : Nat)
    (flag : Option Nat) : List ObserverEntry :=
  observers.filter (fun e =>
    e.cb == observer ||
      (match flag with
       | some f => e.mask == f
       | none => false))

/-- Stable insertion of an entry into a priority-sorted list; `sortByPrio`
models the `sorted(observers, key=get_priority)` call in
`get_observer_entries` (observable.py lines 122-125). -/
def insertByPrio (e : ObserverEntry) : List ObserverEntry → List ObserverEntry
  | [] => [e]
  | x :: xs => if e.prio < x.prio then e :: x :: xs else x :: insertByPrio e xs

def sortByPrio : List ObserverEntry → List ObserverEntry
  | [] => []
  | x :: xs => insertByPrio x (sortByPrio xs)

/-! ## Observable state and notification (observable.py lines 20-177) -/

structure Obs where
  observers : List ObserverEntry
  pending : Nat
  delay : Bool
  delayed : Nat
  deriving DecidableEq, Repr

/-- `Observable.get_observer_entries` (observable.py lines 102-126): the
registered entries whose mask intersects `flags` and whose
transaction-end marker equals the requested phase, sorted by priority. -/
def getObserverEntries (o : Obs) (flags : Nat) (onTransEnd : Bool) :
    List ObserverEntry :=
  sortByPrio (o.observers.filter (fun e =>
    (flags &&& e.mask != 0) && (e.onTransEnd == onTransEnd)))

/-- The update of `flags_to_notify_on_transaction_end` performed at the end
of `Observable.notify` (observable.py lines 151-158): an `if/elif`
cancellation of the opposite enablement bit, then OR-ing `flags` in.
`~DISABLED` on a `Flag` value is the complement inside the declared bit
universe, i.e. `evAll ^^^ evDisabled`. -/
def maskUpdate (flags pending : Nat) : Nat :=
  (if flags &&& evEnabled != 0 && pending &&& evDisabled != 0 then
    pending &&& (evAll ^^^ evDisabled)
  else if flags &&& evDisabled != 0 && pending &&& evEnabled != 0 then
    pending &&& (evAll ^^^ evEnabled)
  else pending) ||| flags

/-- `Observable.notify` (observable.py lines 129-158).  Returns the new
state and the list of immediate observer invocations `(callback, flags)`
performed (empty while `delay_notifications` is set). -/
def notify (o : Obs) (flags : Nat) : Obs × List (Nat × Nat) :=
  let calls := if o.delay then []
    else (getObserverEntries o flags false).map (fun e => (e.cb, flags))
  let delayed := if o.delay then o.delayed ||| flags else o.delayed
  ({ o with pending := maskUpdate flags o.pending, delayed := delayed }, calls)

/-- The `delay_notifications` setter (observable.py lines 42-53): stores the
flag and, when turning delaying off with a non-empty delayed mask, fires
one `notify` with the accumulated mask and clears it. -/
def setDelay (o : Obs) (v : Bool) : Obs × List (Nat × Nat) :=
  let o1 := { o with delay := v }
  if !v && (o1.delayed != 0) then
    let r := notify o1 o1.delayed
    ({ r.1 with delayed := 0 }, r.2)
  else (o1, [])

/-- `Observable.transaction_end` (observable.py lines 160-177): if the
pending mask is non-empty, call every matching transaction-end observer
with it, then reset it. -/
def transactionEnd (o : Obs) : Obs × List (Nat × Nat) :=
  if o.pending != 0 then
    ({ o with pending := 0 },
      (getObserverEntries o o.pending true).map (fun e => (e.cb, o.pending)))
  else (o, [])

/-- Folding `notify` over a list of flag arguments, accumulating the
immediate observer invocations. -/
def runNotifies (o : Obs) : List Nat → Obs × List (Nat × Nat)
  | [] => (o, [])
  | f :: fs =>
    let r := notify o f
    let r2 := runNotifies r.1 fs
    (r2.1, r.2 ++ r2.2)

/-- OR of a list of flag masks. -/
def orAll : List Nat → Nat
  | [] => 0
  | f :: fs => f ||| orAll fs

/-- C1: the spec says `remove_observer(callback, flag)` removes the entries
matching the callback (or the flag, when one is given) and retains all
others.  The code filters the observer set with the *match* predicate and
keeps the result, so it retains exactly the matching entries and removes
all the others.  Evaluating the embedded code at a failing input: asked to
remove callback 2 from a registry holding callbacks 1 and 2, it returns
the registry holding only callback 2 — the matching entry survives and
the unrelated entry is gone. -/
theorem remove_observer_keeps_matching_entries :
    removeObserver
        [⟨1, evEnabled, 5, false⟩, ⟨2, evDisabled, 5, false⟩] 2 none =
      [⟨2, evDisabled, 5, false⟩] ∧
    removeObserver [⟨1, evEnabled, 5, false⟩] 2 none = [] := by
  constructor
  · rfl
  · rfl

/-- C4: `notify(flags)` with the ENABLED bit clears a still-pending
DISABLED bit from `flags_to_notify_on_transaction_end` before OR-ing
`flags` in (so DISABLED survives exactly when `flags` itself carries it),
symmetrically for DISABLED clearing a still-pending ENABLED bit, and after
`notify(ENABLED)` followed by `notify(DISABLED)` only DISABLED survives of
the two enablement bits, whatever else was pending. -/
theorem notify_cancels_opposite_enablement_bit :
    ∀ flags pending : Fin 32,
      (((flags : Nat) &&& evEnabled ≠ 0) →
        ((maskUpdate flags pending &&& evDisabled ≠ 0) ↔
          ((flags : Nat) &&& evDisabled ≠ 0))) ∧
      (((flags : Nat) &&& evDisabled ≠ 0) →
        ((maskUpdate flags pending &&& evEnabled ≠ 0) ↔
          ((flags : Nat) &&& evEnabled ≠ 0))) ∧
      (maskUpdate evDisabled (maskUpdate evEnabled pending) &&&
          (evEnabled ||| evDisabled) = evDisabled) := by
  decide

/-! ### Bitwise-subset helper lemmas for the transaction mask -/

def SubMask (a b : Nat) : Prop := a ||| b = b

theorem subMask_iff {a b : Nat} :
    SubMask a b ↔ ∀ i, a.testBit i = true → b.testBit i = true := by
  constructor
  · intro h i hi
    have h2 := congrArg (fun x => x.testBit i) h
    simpa [Nat.testBit_lor, hi] using h2
  · intro h
    apply Nat.eq_of_testBit_eq
    intro i
    rw [Nat.testBit_lor]
    cases ha : a.testBit i
    · simp
    · simp [h i ha]

theorem subMask_or_left (a b : Nat) : SubMask a (a ||| b) := by
  rw [subMask_iff]
  intro i hi
  simp [Nat.testBit_lor, hi]

theorem subMask_or_right (a b : Nat) : SubMask b (a ||| b) := by
  rw [subMask_iff]
  intro i hi
  simp [Nat.testBit_lor, hi]

theorem subMask_or_sup {a b c : Nat} (ha : SubMask a c) (hb : SubMask b c) :
    SubMask (a ||| b) c := by
  rw [subMask_iff] at *
  intro i hi
  rw [Nat.testBit_lor] at hi
  rcases Bool.or_eq_true_iff.mp hi with h | h
  · exact ha i h
  · exact hb i h

theorem subMask_and_left {a c : Nat} (m : Nat) (ha : SubMask a c) :
    SubMask (a &&& m) c := by
  rw [subMask_iff] at *
  intro i hi
  rw [Nat.testBit_and] at hi
  exact ha i (Bool.and_eq_true_iff.mp hi).1

theorem subMask_maskUpdate {f p c : Nat} (hf : SubMask f c)
    (hp : SubMask p c) : SubMask (maskUpdate f p) c := by
  unfold maskUpdate
  split
  · exact subMask_or_sup (subMask_and_left _ hp) hf
  · split
    · exact subMask_or_sup (subMask_and_left _ hp) hf
    · exact subMask_or_sup hp hf

theorem maskUpdate_of_subMask {p F : Nat} (hp : SubMask p F) :
    maskUpdate F p = F := by
  unfold maskUpdate
  split
  · exact subMask_and_left _ hp
  · split
    · exact subMask_and_left _ hp
    · exact hp

theorem subMask_orAll_of_mem {f : Nat} {fs : List Nat} (h : f ∈ fs) :
    SubMask f (orAll fs) := by
  induction fs with
  | nil => cases h
  | cons g gs ih =>
    rcases List.mem_cons.mp h with h | h
    · subst h
      exact subMask_or_left _ _
    · have := ih h
      rw [subMask_iff] at this ⊢
      intro i hi
      have := this i hi
      simp [orAll, Nat.testBit_lor, this]

/-- Behaviour of a run of `notify` calls while `delay_notifications` is
set: no immediate observer invocations, the delayed mask accumulates the
OR of all flags, and the pending transaction mask stays inside any bound
containing the initial pending mask and every notified flag set. -/
theorem runNotifies_delayed (fs : List Nat) :
    ∀ o : Obs, o.delay = true →
      (runNotifies o fs).2 = [] ∧
      (runNotifies o fs).1.delay = true ∧
      (runNotifies o fs).1.delayed = o.delayed ||| orAll fs ∧
      (runNotifies o fs).1.observers = o.observers ∧
      (∀ F, SubMask o.pending F → (∀ f ∈ fs, SubMask f F) →
        SubMask (runNotifies o fs).1.pending F) := by
  induction fs with
  | nil =>
    intro o h
    refine ⟨rfl, h, by simp [runNotifies, orAll], rfl, ?_⟩
    intro F hF _
    exact hF
  | cons f fs ih =>
    intro o h
    have hstep : runNotifies o (f :: fs) =
        (let r2 := runNotifies
            { o with pending := maskUpdate f o.pending,
                     delayed := o.delayed ||| f } fs
         (r2.1, [] ++ r2.2)) := by
      simp [runNotifies, notify, h]
    obtain ⟨h1, h2, h3, h4, h5⟩ :=
      ih { o with pending := maskUpdate f o.pending,
                  delayed := o.delayed ||| f } h
    rw [hstep]
    refine ⟨by simpa using h1, h2, ?_, h4, ?_⟩
    · simpa [orAll, Nat.lor_assoc] using h3
    · intro F hF hfs
      exact h5 F
        (subMask_maskUpdate (hfs f (List.mem_cons_self f fs)) hF)
        (fun g hg => hfs g (List.mem_cons_of_mem f hg))

/-- C5: starting a transaction (delay on, nothing accumulated, nothing
pending), every `notify(flags)` invokes zero immediate observers and ORs
the flags into the delayed mask; turning `delay_notifications` back off
fires exactly one `notify` carrying the OR of everything accumulated
(which reaches the immediate observers merged); and a subsequent
`transaction_end` delivers one call per matching transaction-end observer
entry with the merged mask, then clears the mask. -/
theorem delay_notifications_batching (observers : List ObserverEntry)
    (fs : List Nat) :
    (runNotifies ⟨observers, 0, true, 0⟩ fs).2 = [] ∧
    (runNotifies ⟨observers, 0, true, 0⟩ fs).1.delayed = orAll fs ∧
    (orAll fs ≠ 0 →
      (setDelay (runNotifies ⟨observers, 0, true, 0⟩ fs).1 false =
        (let r := notify
            { (runNotifies ⟨observers, 0, true, 0⟩ fs).1 with delay := false }
            (orAll fs)
         ({ r.1 with delayed := 0 }, r.2))) ∧
      (setDelay (runNotifies ⟨observers, 0, true, 0⟩ fs).1 false).2 =
        (getObserverEntries ⟨observers, 0, true, 0⟩ (orAll fs) false).map
          (fun e => (e.cb, orAll fs)) ∧
      (setDelay (runNotifies ⟨observers, 0, true, 0⟩ fs).1 false).1.pending
        = orAll fs ∧
      transactionEnd
          (setDelay (runNotifies ⟨observers, 0, true, 0⟩ fs).1 false).1 =
        ({ (setDelay (runNotifies ⟨observers, 0, true, 0⟩ fs).1 false).1
            with pending := 0 },
          (getObserverEntries ⟨observers, 0, true, 0⟩ (orAll fs) true).map
            (fun e => (e.cb, orAll fs)))) := by
  obtain ⟨h1, h2, h3, h4, h5⟩ :=
    runNotifies_delayed fs ⟨observers, 0, true, 0⟩ rfl
  set s1 := (runNotifies ⟨observers, 0, true, 0⟩ fs).1 with hs1
  have hdel : s1.delayed = orAll fs := by simpa using h3
  have hsub : SubMask s1.pending (orAll fs) :=
    h5 (orAll fs) (by simp [SubMask]) (fun f hf => subMask_orAll_of_mem hf)
  refine ⟨h1, hdel, ?_⟩
  intro hne
  have hcond : (!false && ({ s1 with delay := false }.delayed != 0)) = true := by
    simp [hdel, hne]
  have hsd : setDelay s1 false =
      (let r := notify { s1 with delay := false } (orAll fs)
       ({ r.1 with delayed := 0 }, r.2)) := by
    unfold setDelay
    rw [if_pos hcond]
    simp [hdel]
  refine ⟨hsd, ?_, ?_, ?_⟩
  · rw [hsd]
    simp only [notify]
    simp [getObserverEntries, h4]
  · rw [hsd]
    simp only [notify]
    simpa using maskUpdate_of_subMask hsub
  · rw [hsd]
    simp only [notify]
    have hp2 : maskUpdate (orAll fs) s1.pending = orAll fs :=
      maskUpdate_of_subMask hsub
    unfold transactionEnd
    simp only [hp2]
    rw [if_pos (by simpa using hne)]
    simp [getObserverEntries, h4, hp2]

theorem delay_notifications_batching_witness :
    orAll [evUpdated, evValueChanged] ≠ 0 ∧
      (setDelay
          (runNotifies
            ⟨[⟨7, 31, 5, false⟩, ⟨8, 31, 5, true⟩], 0, true, 0⟩
            [evUpdated, evValueChanged]).1 false).1.pending =
        orAll [evUpdated, evValueChanged] :=
  ⟨by decide,
    ((delay_notifications_batching [⟨7, 31, 5, false⟩, ⟨8, 31, 5, true⟩]
        [evUpdated, evValueChanged]).2.2 (by decide)).2.2.1⟩

/-! ## Unit system (units.py) and conversion functions (attributes.py)

The unit enums of units.py; Python floats are modelled as exact
rationals. -/

inductive Temperature where
  | C | F | K | INVALID | UNKNOWN
  deriving DecidableEq, Repr

inductive Length where
  | M | FT | KM | MI | INVALID | UNKNOWN
  deriving DecidableEq, Repr

inductive Speed where
  | KMH | MPH | INVALID | UNKNOWN
  deriving DecidableEq, Repr

inductive Power where
  | KW | W | INVALID | UNKNOWN
  deriving DecidableEq, Repr

inductive Energy where
  | KWH | WH | INVALID | UNKNOWN
  deriving DecidableEq, Repr

/-- `RangeAttribute.convert` (attributes.py lines 799-835). -/
def rangeConvert (value : Option ℚ) (fromU toU : Option Length) : Option ℚ :=
  if fromU = none ∨ toU = none ∨ value = none ∨ fromU = toU then value
  else match value with
  | none => value
  | some v =>
    if fromU = some Length.MI ∧ toU = some Length.KM then
      some (v * 1.609344)
    else if fromU = some Length.KM ∧ toU = some Length.MI then
      some (v / 1.609344)
    else if fromU = some Length.M ∧ toU = some Length.KM then
      some (v / 1000)
    else if fromU = some Length.KM ∧ toU = some Length.M then
      some (v * 1000)
    else if fromU = some Length.FT ∧ toU = some Length.M then
      some (v / 3.2808)
    else if fromU = some Length.M ∧ toU = some Length.FT then
      some (v * 3.2808)
    else if fromU = some Length.FT ∧ toU = some Length.MI then
      some (v / 5280)
    else if fromU = some Length.MI ∧ toU = some Length.FT then
      some (v * 5280)
    else value

/-- `SpeedAttribute.convert` (attributes.py lines 884-908). -/
def speedConvert (value : Option ℚ) (fromU toU : Option Speed) : Option ℚ :=
  if fromU = none ∨ toU = none ∨ value = none ∨ toU = fromU then value
  else match value with
  | none => value
  | some v =>
    if fromU = some Speed.MPH ∧ toU = some Speed.KMH then
      some (v * 1.609344)
    else if fromU = some Speed.KMH ∧ toU = some Speed.MPH then
      some (v / 1.609344)
    else value

/-- `PowerAttribute.convert` (attributes.py lines 954-978). -/
def powerConvert (value : Option ℚ) (fromU toU : Option Power) : Option ℚ :=
  if fromU = none ∨ toU = none ∨ value = none ∨ toU = fromU then value
  else match value with
  | none => value
  | some v =>
    if fromU = some Power.W ∧ toU = some Power.KW then some (v / 1000)
    else if fromU = some Power.KW ∧ toU = some Power.W then some (v * 1000)
    else value

/-- `EnergyAttribute.convert` (attributes.py lines 1005-1029). -/
def energyConvert (value : Option ℚ) (fromU toU : Option Energy) : Option ℚ :=
  if fromU = none ∨ toU = none ∨ value = none ∨ toU = fromU then value
  else match value with
  | none => value
  | some v =>
    if fromU = some Energy.WH ∧ toU = some Energy.KWH then some (v / 1000)
    else if fromU = some Energy.KWH ∧ toU = some Energy.WH then
      some (v * 1000)
    else value

/-- `TemperatureAttribute.convert` (attributes.py lines 1077-1116).  The
cascading `if to_unit == ...: if from_unit == ...:` blocks are flattened
into one if-chain; a pair not covered by any branch falls through and
returns the value unchanged.  Note the `273.5` constant in the
Fahrenheit-to-Kelvin branch, taken verbatim from line 1115 of the
source (every other branch uses `273.15`). -/
def temperatureConvert (value : Option ℚ) (fromU toU : Option Temperature) :
    Option ℚ :=
  if fromU = none ∨ toU = none ∨ value = none ∨ toU = fromU then value
  else match value with
  | none => value
  | some v =>
    if toU = some Temperature.C ∧ fromU = some Temperature.F then
      some ((v - 32.0) * (5.0 / 9.0))
    else if toU = some Temperature.C ∧ fromU = some Temperature.K then
      some (v - 273.15)
    else if toU = some Temperature.F ∧ fromU = some Temperature.C then
      some (v * (9.0 / 5.0) + 32.0)
    else if toU = some Temperature.F ∧ fromU = some Temperature.K then
      some ((v - 273.15) * (9.0 / 5.0) + 32.0)
    else if toU = some Temperature.K ∧ fromU = some Temperature.C then
      some (v + 273.15)
    else if toU = some Temperature.K ∧ fromU = some Temperature.F then
      some (273.5 + (v - 32.0) * (5.0 / 9.0))
    else value

/-- The declared Length conversions do round-trip exactly (in exact
rational arithmetic), as do Celsius/Fahrenheit: supporting evidence that
the round-trip clause holds for the other quantities. -/
theorem range_and_cf_roundtrips_exact (x : ℚ) :
    rangeConvert (rangeConvert (some x) (some Length.KM) (some Length.MI))
        (some Length.MI) (some Length.KM) = some x ∧
    rangeConvert (rangeConvert (some x) (some Length.FT) (some Length.M))
        (some Length.M) (some Length.FT) = some x ∧
    temperatureConvert
        (temperatureConvert (some x) (some Temperature.C)
          (some Temperature.F))
        (some Temperature.F) (some Temperature.C) = some x ∧
    temperatureConvert
        (temperatureConvert (some x) (some Temperature.C)
          (some Temperature.K))
        (some Temperature.K) (some Temperature.C) = some x := by
  refine ⟨?_, ?_, ?_, ?_⟩
  · simp [rangeConvert]
    ring_nf
  · simp [rangeConvert]
    ring_nf
  · simp [temperatureConvert]
    ring_nf
  · simp [temperatureConvert]

/-- C6: evaluating the Kelvin↔Fahrenheit round trip at x = 0: the code
returns 0.35 instead of a value within 1e-6 of 0, because the
Fahrenheit-to-Kelvin branch adds 273.5 where every other branch of the
same function uses the Kelvin offset 273.15. -/
theorem temperature_kf_roundtrip_exceeds_tolerance :
    temperatureConvert
        (temperatureConvert (some 0) (some Temperature.K)
          (some Temperature.F))
        (some Temperature.F) (some Temperature.K) = some 0.35 ∧
      ¬ ((0.35 : ℚ) - 0 ≤ 1e-6) := by
  constructor
  · simp [temperatureConvert]
    norm_num
  · norm_num

/-! ## The object tree and enabled/disabled propagation
(objects.py `GenericObject.enabled`, attributes.py `GenericAttribute.enabled`)

Nodes are numbered; the parent relation points to strictly smaller
indices (parents are constructed before their children, and the Python
parent chain is acyclic).  Nodes at or beyond `n` do not exist (their
parent is `none`).  The enabled flags of the tree are a `List Bool`
indexed by node; `children` recovers the Python child list (construction
order).  An attribute is simply a leaf node that has a parent: both
`enabled` setters are the same code for such a node (an attribute has no
children to cascade into, and its parent is mandatory). -/

structure ObjTree where
  n : Nat
  parent : Nat → Option Nat
  hpar : ∀ i p, parent i = some p → p < i
  hdom : ∀ i, n ≤ i → parent i = none

def getE (s : List Bool) (i : Nat) : Bool := s.getD i false

def setE (s : List Bool) (i : Nat) (b : Bool) : List Bool := s.set i b

theorem getE_setE_self {s : List Bool} {i : Nat} (b : Bool)
    (h : i < s.length) : getE (setE s i b) i = b := by
  simp [getE, setE, List.getD, List.getElem?_set_self, h]

theorem getE_setE_ne {s : List Bool} {i j : Nat} (b : Bool) (h : j ≠ i) :
    getE (setE s i b) j = getE s j := by
  simp [getE, setE, List.getD, List.getElem?_set_ne (Ne.symm h)]

theorem setE_of_length_le {s : List Bool} {i : Nat} (b : Bool)
    (h : s.length ≤ i) : setE s i b = s :=
  List.set_eq_of_length_le h

theorem getE_of_length_le {s : List Bool} {i : Nat} (h : s.length ≤ i) :
    getE s i = false := by
  simp [getE, List.getD, List.getElem?_eq_none h]

theorem getE_true_lt {s : List Bool} {i : Nat} (h : getE s i = true) :
    i < s.length := by
  by_contra hn
  rw [getE_of_length_le (Nat.le_of_not_lt hn)] at h
  cases h

theorem length_setE (s : List Bool) (i : Nat) (b : Bool) :
    (setE s i b).length = s.length := by
  simp [setE]

theorem getE_replicate (n j : Nat) :
    getE (List.replicate n false) j = false := by
  simp [getE, List.getD]

/-- Lowering a flag can only lower `getE`. -/
theorem getE_setE_false_le {s : List Bool} {i j : Nat}
    (h : getE (setE s i false) j = true) : getE s j = true := by
  by_cases hj : j = i
  · subst hj
    by_cases hlen : j < s.length
    · rw [getE_setE_self false hlen] at h
      cases h
    · rw [setE_of_length_le false (Nat.le_of_not_lt hlen)] at h
      exact h
  · rwa [getE_setE_ne false hj] at h

/-- The Python child list of a node: the nodes whose parent it is, in
construction order. -/
def children (t : ObjTree) (i : Nat) : List Nat :=
  (List.range t.n).filter (fun j => t.parent j == some i)

/-- `all(not child.enabled for child in parent.children)`
(attributes.py line 504, objects.py line 253). -/
def allDisabled (t : ObjTree) (s : List Bool) (i : Nat) : Bool :=
  (children t i).all (fun c => !(getE s c))

/-- The strict ancestor chain of a node (nearest parent first). -/
def ancChain (t : ObjTree) (i : Nat) : List Nat :=
  match h : t.parent i with
  | some p => p :: ancChain t p
  | none => []
termination_by i
decreasing_by exact t.hpar i p h

theorem ancChain_parent_cons {t : ObjTree} {i p : Nat}
    (h : t.parent i = some p) : ancChain t i = p :: ancChain t p := by
  rw [ancChain]
  split
  · next q hq =>
    rw [h] at hq
    cases hq
    rfl
  · next hq =>
    rw [h] at hq
    cases hq

theorem ancChain_eq_nil {t : ObjTree} {i : Nat}
    (h : t.parent i = none) : ancChain t i = [] := by
  rw [ancChain]
  split
  · next q hq =>
    rw [h] at hq
    cases hq
  · rfl

theorem ancChain_lt {t : ObjTree} {i : Nat} :
    ∀ j ∈ ancChain t i, j < i := by
  induction i using Nat.strong_induction_on with
  | _ i ih =>
    intro j hj
    cases hp : t.parent i with
    | none =>
      rw [ancChain_eq_nil hp] at hj
      cases hj
    | some p =>
      rw [ancChain_parent_cons hp] at hj
      rcases List.mem_cons.mp hj with h | h
      · subst h
        exact t.hpar i j hp
      · exact Nat.lt_trans (ih p (t.hpar i p hp) j h) (t.hpar i p hp)

theorem ancChain_sub {t : ObjTree} {i : Nat} :
    ∀ c, c ∈ ancChain t i → ∀ j ∈ ancChain t c, j ∈ ancChain t i := by
  induction i using Nat.strong_induction_on with
  | _ i ih =>
    intro c hc j hj
    cases hp : t.parent i with
    | none =>
      rw [ancChain_eq_nil hp] at hc
      cases hc
    | some p =>
      rw [ancChain_parent_cons hp] at hc ⊢
      rcases List.mem_cons.mp hc with h | h
      · subst h
        exact List.mem_cons_of_mem c hj
      · exact List.mem_cons_of_mem p (ih p (t.hpar i p hp) c h j hj)

theorem mem_ancChain_of_parent {t : ObjTree} {i p : Nat}
    (h : t.parent i = some p) : p ∈ ancChain t i := by
  rw [ancChain_parent_cons h]
  exact List.mem_cons_self _ _

/-- `j` lies in the subtree rooted at `i`. -/
def inSubtree (t : ObjTree) (i j : Nat) : Prop :=
  i = j ∨ i ∈ ancChain t j

theorem inSubtree_self (t : ObjTree) (i : Nat) : inSubtree t i i := Or.inl rfl

theorem inSubtree_of_child {t : ObjTree} {i c j : Nat}
    (hc : t.parent c = some i) (h : inSubtree t c j) : inSubtree t i j := by
  rcases h with h | h
  · subst h
    exact Or.inr (mem_ancChain_of_parent hc)
  · exact Or.inr (ancChain_sub c h i (mem_ancChain_of_parent hc))

theorem mem_children_iff {t : ObjTree} {i c : Nat} :
    c ∈ children t i ↔ c < t.n ∧ t.parent c = some i := by
  simp [children, List.mem_filter, List.mem_range]

theorem mem_children_of_parent {t : ObjTree} {i c : Nat}
    (hc : t.parent c = some i) : c ∈ children t i := by
  rcases Nat.lt_or_ge c t.n with h | h
  · exact mem_children_iff.mpr ⟨h, hc⟩
  · rw [t.hdom c h] at hc
    cases hc

/-- Splitting a strict subtree membership at the root: a proper
descendant of `i` lies in the subtree of one of `i`'s children. -/
theorem inSubtree_step {t : ObjTree} {i j : Nat} (h : i ∈ ancChain t j) :
    ∃ c, t.parent c = some i ∧ inSubtree t c j := by
  induction j using Nat.strong_induction_on with
  | _ j ih =>
    rw [ancChain] at h
    split at h
    · next p hp =>
      rcases List.mem_cons.mp h with h | h
      · subst h
        exact ⟨j, hp, inSubtree_self t j⟩
      · obtain ⟨c, hc1, hc2⟩ := ih p (t.hpar j p hp) h
        refine ⟨c, hc1, ?_⟩
        rcases hc2 with h2 | h2
        · subst h2
          exact Or.inr (mem_ancChain_of_parent hp)
        · refine Or.inr ?_
          rw [ancChain_parent_cons hp]
          exact List.mem_cons_of_mem p h2
    · cases h

/-- Monotone state evolution keeps `allDisabled`. -/
theorem allDisabled_mono {t : ObjTree} {s s' : List Bool} {i : Nat}
    (hmono : ∀ j, getE s' j = true → getE s j = true)
    (h : allDisabled t s i = true) : allDisabled t s' i = true := by
  rw [allDisabled, List.all_eq_true] at h ⊢
  intro c hc
  have := h c hc
  cases hE : getE s' c
  · rfl
  · rw [hmono c hE] at this
    cases this

/-- A notification event: the node that called `notify` and the flag
mask it passed. -/
structure Evt where
  node : Nat
  flags : Nat
  deriving DecidableEq, Repr

/-- The `enabled = True` path of the two `enabled` setters
(attributes.py lines 489-496, objects.py lines 232-239): first enable the
parent (recursively), then — only if previously disabled — set the own
flag and notify `ENABLED`. -/
def enable (t : ObjTree) (s : List Bool) (i : Nat) : List Bool × List Evt :=
  match h : t.parent i with
  | some p =>
    let r := enable t s p
    if getE r.1 i then (r.1, r.2)
    else (setE r.1 i true, r.2 ++ [⟨i, evEnabled⟩])
  | none =>
    if getE s i then (s, [])
    else (setE s i true, [⟨i, evEnabled⟩])
termination_by i
decreasing_by exact t.hpar i p h

mutual

/-- The `enabled = False` path of the two `enabled` setters
(objects.py lines 240-254, attributes.py lines 497-505): cascade into
enabled children first, then — only if previously enabled — clear the own
flag and notify `DISABLED`, then run the conditional upward propagation.
The recursion of the Python call graph is modelled with explicit fuel;
`none` means the fuel ran out (the Python recursion is finite, so every
terminating run is captured by some fuel value). -/
def disableF (t : ObjTree) : Nat → List Bool → Nat → Option (List Bool × List Evt)
  | 0, _, _ => none
  | Nat.succ f, s, i =>
    (disableChildren t f s (children t i)).bind fun r1 =>
      if getE r1.1 i then
        (disableUp t f (setE r1.1 i false) i).bind fun r3 =>
          some (r3.1, (r1.2 ++ [⟨i, evDisabled⟩]) ++ r3.2)
      else
        (disableUp t f r1.1 i).bind fun r3 => some (r3.1, r1.2 ++ r3.2)
termination_by f _ _ => (f, 0)

/-- The upward step at the end of a disable: if every child of the parent
is now disabled, disable the parent (objects.py lines 251-254,
attributes.py lines 503-505; an attribute always has a parent). -/
def disableUp (t : ObjTree) : Nat → List Bool → Nat → Option (List Bool × List Evt)
  | f, s, i =>
    match t.parent i with
    | some p =>
      if allDisabled t s p then disableF t f s p
      else some (s, [])
    | none => some (s, [])
termination_by f _ _ => (f, 1)

/-- The `for child in children: if child.enabled: child.enabled = False`
loop (objects.py lines 242-244). -/
def disableChildren (t : ObjTree) :
    Nat → List Bool → List Nat → Option (List Bool × List Evt)
  | _, s, [] => some (s, [])
  | f, s, c :: cs =>
    if getE s c then
      (disableF t f s c).bind fun r1 =>
        (disableChildren t f r1.1 cs).bind fun r2 => some (r2.1, r1.2 ++ r2.2)
    else disableChildren t f s cs
termination_by f _ l => (f, l.length + 2)

end

/-! ### Structural facts about the disable recursion

`DisMono s s'`: the run from `s` to `s'` only ever turned flags off. -/

def DisMono (s s' : List Bool) : Prop :=
  ∀ j, getE s' j = true → getE s j = true

/-- Facts about every terminating `disableF` run: it is monotone
(flags only go off), the target node ends up disabled, the state length
is preserved, every notification is a `DISABLED` for a node that was
enabled on entry, every changed node ends disabled and lies in the
subtree of the target or on its ancestor chain with all its children
disabled, and — when called with all children of the target already
disabled — the changes are confined to the target and its ancestor
chain, each with all children disabled. -/
def PFacts (t : ObjTree) (f : Nat) : Prop :=
  ∀ s i s' ev, disableF t f s i = some (s', ev) →
    DisMono s s' ∧ getE s' i = false ∧ s'.length = s.length ∧
    (∀ e ∈ ev, e.flags = evDisabled ∧ getE s e.node = true) ∧
    (∀ j, getE s' j ≠ getE s j →
      getE s' j = false ∧
        (inSubtree t i j ∨
          (j ∈ ancChain t i ∧ allDisabled t s' j = true))) ∧
    (allDisabled t s i = true →
      ∀ j, getE s' j ≠ getE s j →
        (j = i ∨ j ∈ ancChain t i) ∧ allDisabled t s' j = true)

def RFacts (t : ObjTree) (f : Nat) : Prop :=
  ∀ s i s' ev, disableUp t f s i = some (s', ev) →
    DisMono s s' ∧ s'.length = s.length ∧
    (∀ e ∈ ev, e.flags = evDisabled ∧ getE s e.node = true) ∧
    (∀ j, getE s' j ≠ getE s j →
      getE s' j = false ∧ j ∈ ancChain t i ∧ allDisabled t s' j = true)

def QFacts (t : ObjTree) (f : Nat) : Prop :=
  ∀ s l s' ev, disableChildren t f s l = some (s', ev) →
    DisMono s s' ∧ (∀ c ∈ l, getE s' c = false) ∧ s'.length = s.length ∧
    (∀ e ∈ ev, e.flags = evDisabled ∧ getE s e.node = true) ∧
    (∀ j, getE s' j ≠ getE s j →
      getE s' j = false ∧
        ((∃ c ∈ l, inSubtree t c j) ∨
          ((∃ c ∈ l, j ∈ ancChain t c) ∧ allDisabled t s' j = true)))

/-- Cascading into a list of already-disabled children does nothing. -/
theorem disableChildren_noop {t : ObjTree} {f : Nat} {s : List Bool}
    {l : List Nat} (h : ∀ c ∈ l, getE s c = false) :
    disableChildren t f s l = some (s, []) := by
  induction l with
  | nil => rw [disableChildren]
  | cons c cs ihl =>
    have hc : getE s c = false := h c (List.mem_cons_self c cs)
    rw [disableChildren, if_neg (by simp [hc])]
    exact ihl (fun x hx => h x (List.mem_cons_of_mem c hx))

theorem disableUp_facts (t : ObjTree) (f : Nat) (hP : PFacts t f) :
    RFacts t f := by
  intro s i s' ev h
  rw [disableUp] at h
  split at h
  · next p hp =>
    by_cases hAll : allDisabled t s p = true
    · rw [if_pos hAll] at h
      obtain ⟨hm, hself, hlen, hev, hch, hg⟩ := hP s p s' ev h
      refine ⟨hm, hlen, hev, ?_⟩
      intro j hj
      obtain ⟨hji, hjd⟩ := hg hAll j hj
      refine ⟨(hch j hj).1, ?_, hjd⟩
      rcases hji with hji | hji
      · subst hji
        exact mem_ancChain_of_parent hp
      · exact ancChain_sub p (mem_ancChain_of_parent hp) j hji
    · rw [if_neg hAll] at h
      injection h with h
      injection h with h1 h2
      subst h1
      subst h2
      refine ⟨fun j hj => hj, rfl, by simp, ?_⟩
      intro j hj
      exact absurd rfl hj
  · injection h with h
    injection h with h1 h2
    subst h1
    subst h2
    refine ⟨fun j hj => hj, rfl, by simp, ?_⟩
    intro j hj
    exact absurd rfl hj

theorem disableChildren_facts (t : ObjTree) (f : Nat) (hP : PFacts t f) :
    QFacts t f := by
  intro s l
  induction l generalizing s with
  | nil =>
    intro s' ev h
    rw [disableChildren] at h
    injection h with h
    injection h with h1 h2
    subst h1
    subst h2
    exact ⟨fun j hj => hj, by simp, rfl, by simp,
      fun j hj => absurd rfl hj⟩
  | cons c cs ihl =>
    intro s' ev h
    rw [disableChildren] at h
    by_cases hc : getE s c = true
    · rw [if_pos (by simp [hc])] at h
      rw [Option.bind_eq_some] at h
      obtain ⟨⟨s1, ev1⟩, hF, h⟩ := h
      rw [Option.bind_eq_some] at h
      obtain ⟨⟨s2, ev2⟩, hD, h⟩ := h
      injection h with h
      injection h with h1 h2
      subst h1
      subst h2
      obtain ⟨m1, hself, len1, evts1, ch1, hg1⟩ := hP s c s1 ev1 hF
      obtain ⟨m2, all2, len2, evts2, ch2⟩ := ihl s1 s2 ev2 hD
      have hmono : DisMono s s2 := fun j hj => m1 j (m2 j hj)
      refine ⟨hmono, ?_, len2.trans len1, ?_, ?_⟩
      · intro x hx
        rcases List.mem_cons.mp hx with hx | hx
        · subst hx
          cases hE : getE s2 x
          · rfl
          · rw [m2 x hE] at hself
            cases hself
        · exact all2 x hx
      · intro e he
        rcases List.mem_append.mp he with he | he
        · exact evts1 e he
        · obtain ⟨h1, h2⟩ := evts2 e he
          exact ⟨h1, m1 e.node h2⟩
      · intro j hj
        by_cases h21 : getE s2 j = getE s1 j
        · have h10 : getE s1 j ≠ getE s j := by
            rw [← h21]
            exact hj
          obtain ⟨hf0, hd⟩ := ch1 j h10
          refine ⟨h21.trans hf0, ?_⟩
          rcases hd with hd | hd
          · exact Or.inl ⟨c, List.mem_cons_self c cs, hd⟩
          · exact Or.inr ⟨⟨c, List.mem_cons_self c cs, hd.1⟩,
              allDisabled_mono m2 hd.2⟩
        · obtain ⟨hf0, hd⟩ := ch2 j h21
          refine ⟨hf0, ?_⟩
          rcases hd with hd | hd
          · obtain ⟨x, hx1, hx2⟩ := hd
            exact Or.inl ⟨x, List.mem_cons_of_mem c hx1, hx2⟩
          · obtain ⟨⟨x, hx1, hx2⟩, hd2⟩ := hd
            exact Or.inr ⟨⟨x, List.mem_cons_of_mem c hx1, hx2⟩, hd2⟩
    · rw [if_neg (by simp [hc])] at h
      obtain ⟨m2, all2, len2, evts2, ch2⟩ := ihl s s' ev h
      refine ⟨m2, ?_, len2, evts2, ?_⟩
      · intro x hx
        rcases List.mem_cons.mp hx with hx | hx
        · subst hx
          cases hE : getE s' x
          · rfl
          · rw [m2 x hE] at hc
            exact absurd rfl hc
        · exact all2 x hx
      · intro j hj
        obtain ⟨hf0, hd⟩ := ch2 j hj
        refine ⟨hf0, ?_⟩
        rcases hd with hd | hd
        · obtain ⟨x, hx1, hx2⟩ := hd
          exact Or.inl ⟨x, List.mem_cons_of_mem c hx1, hx2⟩
        · obtain ⟨⟨x, hx1, hx2⟩, hd2⟩ := hd
          exact Or.inr ⟨⟨x, List.mem_cons_of_mem c hx1, hx2⟩, hd2⟩

theorem disableF_facts (t : ObjTree) : ∀ f, PFacts t f := by
  intro f
  induction f using Nat.strong_induction_on with
  | _ f ih =>
    cases f with
    | zero =>
      intro s i s' ev h
      rw [disableF] at h
      exact Option.noConfusion h
    | succ g =>
      have hPg : PFacts t g := ih g (Nat.lt_succ_self g)
      have hQ : QFacts t g := disableChildren_facts t g hPg
      have hR : RFacts t g := disableUp_facts t g hPg
      intro s i s' ev h
      rw [disableF] at h
      rw [Option.bind_eq_some] at h
      obtain ⟨⟨s1, ev1⟩, hC, h⟩ := h
      dsimp only at h
      obtain ⟨m1, all1, len1, evts1, ch1⟩ := hQ s (children t i) s1 ev1 hC
      by_cases hi : getE s1 i = true
      · rw [if_pos hi, Option.bind_eq_some] at h
        obtain ⟨⟨s3, ev3⟩, hU, h⟩ := h
        dsimp only at h
        injection h with h
        injection h with h1 h2
        subst h1
        subst h2
        obtain ⟨mR, lenR, evtsR, chR⟩ := hR (setE s1 i false) i s3 ev3 hU
        have hilen : i < s1.length := getE_true_lt hi
        have hm12 : ∀ j, getE s3 j = true → getE s1 j = true :=
          fun j hj => getE_setE_false_le (mR j hj)
        have hmono : DisMono s s3 := fun j hj => m1 j (hm12 j hj)
        refine ⟨hmono, ?_, ?_, ?_, ?_, ?_⟩
        · by_cases h32 : getE s3 i = getE (setE s1 i false) i
          · rw [h32, getE_setE_self false hilen]
          · exact (chR i h32).1
        · exact lenR.trans ((length_setE s1 i false).trans len1)
        · intro e he
          rcases List.mem_append.mp he with he | he
          · rcases List.mem_append.mp he with he | he
            · exact evts1 e he
            · rw [List.mem_singleton] at he
              subst he
              exact ⟨rfl, m1 i hi⟩
          · obtain ⟨hf, hn⟩ := evtsR e he
            exact ⟨hf, m1 e.node (getE_setE_false_le hn)⟩
        · intro j hj
          by_cases h32 : getE s3 j = getE (setE s1 i false) j
          · by_cases hji : j = i
            · subst hji
              exact ⟨h32.trans (getE_setE_self false hilen),
                Or.inl (inSubtree_self t j)⟩
            · have h21 : getE (setE s1 i false) j = getE s1 j :=
                getE_setE_ne false hji
              have h10 : getE s1 j ≠ getE s j := by
                rw [← h21, ← h32]
                exact hj
              obtain ⟨hf0, hd⟩ := ch1 j h10
              refine ⟨h32.trans (h21.trans hf0), ?_⟩
              rcases hd with ⟨c, hc1, hc2⟩ | ⟨⟨c, hc1, hc2⟩, hd2⟩
              · exact Or.inl
                  (inSubtree_of_child (mem_children_iff.mp hc1).2 hc2)
              · have hpc : t.parent c = some i :=
                  (mem_children_iff.mp hc1).2
                rw [ancChain_parent_cons hpc] at hc2
                rcases List.mem_cons.mp hc2 with hji2 | hji2
                · exact absurd hji2 hji
                · exact Or.inr ⟨hji2, allDisabled_mono hm12 hd2⟩
          · obtain ⟨hf0, hmem, hall⟩ := chR j h32
            exact ⟨hf0, Or.inr ⟨hmem, hall⟩⟩
        · intro hAll j hj
          have hnoop : disableChildren t g s (children t i) = some (s, []) := by
            apply disableChildren_noop
            intro c hcm
            have := (List.all_eq_true.mp hAll) c hcm
            simpa using this
          have hC2 := hnoop.symm.trans hC
          injection hC2 with hC2
          injection hC2 with hs1 hev1
          subst hs1
          subst hev1
          by_cases h32 : getE s3 j = getE (setE s i false) j
          · by_cases hji : j = i
            · subst hji
              exact ⟨Or.inl rfl, allDisabled_mono hm12 hAll⟩
            · have : getE s3 j = getE s j :=
                h32.trans (getE_setE_ne false hji)
              exact absurd this hj
          · obtain ⟨hf0, hmem, hall⟩ := chR j h32
            exact ⟨Or.inr hmem, hall⟩
      · have hif : getE s1 i = false := by
          cases hE : getE s1 i
          · rfl
          · exact absurd hE hi
        rw [if_neg hi, Option.bind_eq_some] at h
        obtain ⟨⟨s3, ev3⟩, hU, h⟩ := h
        dsimp only at h
        injection h with h
        injection h with h1 h2
        subst h1
        subst h2
        obtain ⟨mR, lenR, evtsR, chR⟩ := hR s1 i s3 ev3 hU
        have hmono : DisMono s s3 := fun j hj => m1 j (mR j hj)
        refine ⟨hmono, ?_, lenR.trans len1, ?_, ?_, ?_⟩
        · by_cases h31 : getE s3 i = getE s1 i
          · rw [h31, hif]
          · exact (chR i h31).1
        · intro e he
          rcases List.mem_append.mp he with he | he
          · exact evts1 e he
          · obtain ⟨hf, hn⟩ := evtsR e he
            exact ⟨hf, m1 e.node hn⟩
        · intro j hj
          by_cases h31 : getE s3 j = getE s1 j
          · have h10 : getE s1 j ≠ getE s j := by
              rw [← h31]
              exact hj
            obtain ⟨hf0, hd⟩ := ch1 j h10
            refine ⟨h31.trans hf0, ?_⟩
            rcases hd with ⟨c, hc1, hc2⟩ | ⟨⟨c, hc1, hc2⟩, hd2⟩
            · exact Or.inl
                (inSubtree_of_child (mem_children_iff.mp hc1).2 hc2)
            · have hpc : t.parent c = some i :=
                (mem_children_iff.mp hc1).2
              rw [ancChain_parent_cons hpc] at hc2
              rcases List.mem_cons.mp hc2 with hji2 | hji2
              · subst hji2
                exact Or.inl (inSubtree_self t j)
              · exact Or.inr ⟨hji2, allDisabled_mono mR hd2⟩
          · obtain ⟨hf0, hmem, hall⟩ := chR j h31
            exact ⟨hf0, Or.inr ⟨hmem, hall⟩⟩
        · intro hAll j hj
          have hnoop : disableChildren t g s (children t i) = some (s, []) := by
            apply disableChildren_noop
            intro c hcm
            have := (List.all_eq_true.mp hAll) c hcm
            simpa using this
          have hC2 := hnoop.symm.trans hC
          injection hC2 with hC2
          injection hC2 with hs1 hev1
          subst hs1
          subst hev1
          by_cases h31 : getE s3 j = getE s j
          · exact absurd h31 hj
          · obtain ⟨hf0, hmem, hall⟩ := chR j h31
            exact ⟨Or.inr hmem, hall⟩

/-! ### Facts about the enable recursion -/

theorem enable_parent_some {t : ObjTree} {i p : Nat} (s : List Bool)
    (h : t.parent i = some p) :
    enable t s i =
      (if getE (enable t s p).1 i then ((enable t s p).1, (enable t s p).2)
       else (setE (enable t s p).1 i true,
         (enable t s p).2 ++ [⟨i, evEnabled⟩])) := by
  rw [enable]
  split
  · next q hq =>
    rw [h] at hq
    cases hq
    rfl
  · next hq =>
    rw [h] at hq
    cases hq

theorem enable_parent_none {t : ObjTree} {i : Nat} (s : List Bool)
    (h : t.parent i = none) :
    enable t s i =
      (if getE s i then (s, [])
       else (setE s i true, [⟨i, evEnabled⟩])) := by
  rw [enable]
  split
  · next q hq =>
    rw [h] at hq
    cases hq
  · rfl

theorem enable_length {t : ObjTree} {i : Nat} :
    ∀ s : List Bool, (enable t s i).1.length = s.length := by
  induction i using Nat.strong_induction_on with
  | _ i ih =>
    intro s
    cases hp : t.parent i with
    | none =>
      rw [enable_parent_none s hp]
      split
      · rfl
      · exact length_setE s i true
    | some p =>
      rw [enable_parent_some s hp]
      have hlen := ih p (t.hpar i p hp) s
      split
      · exact hlen
      · exact (length_setE (enable t s p).1 i true).trans hlen

theorem enable_raise {t : ObjTree} {i : Nat} :
    ∀ s : List Bool, ∀ j, getE s j = true → getE (enable t s i).1 j = true := by
  induction i using Nat.strong_induction_on with
  | _ i ih =>
    intro s j hj
    cases hp : t.parent i with
    | none =>
      rw [enable_parent_none s hp]
      split
      · exact hj
      · next hni =>
        by_cases hji : j = i
        · subst hji
          rw [hj] at hni
          exact absurd rfl hni
        · rwa [getE_setE_ne true hji]
    | some p =>
      have hr := ih p (t.hpar i p hp) s j hj
      rw [enable_parent_some s hp]
      split
      · exact hr
      · next hni =>
        by_cases hji : j = i
        · subst hji
          rw [hr] at hni
          exact absurd rfl hni
        · rwa [getE_setE_ne true hji]

theorem enable_changes {t : ObjTree} {i : Nat} :
    ∀ s : List Bool, ∀ j, getE (enable t s i).1 j ≠ getE s j →
      (j = i ∨ j ∈ ancChain t i) ∧ getE (enable t s i).1 j = true := by
  induction i using Nat.strong_induction_on with
  | _ i ih =>
    intro s j hj
    cases hp : t.parent i with
    | none =>
      rw [enable_parent_none s hp] at hj ⊢
      split at hj
      · exact absurd rfl hj
      · next hni =>
        by_cases hji : j = i
        · subst hji
          have hjlen : j < s.length := by
            by_contra hlen
            rw [setE_of_length_le true (Nat.le_of_not_lt hlen)] at hj
            exact hj rfl
          rw [if_neg hni]
          exact ⟨Or.inl rfl, getE_setE_self true hjlen⟩
        · rw [getE_setE_ne true hji] at hj
          exact absurd rfl hj
    | some p =>
      rw [enable_parent_some s hp] at hj ⊢
      split at hj
      · next hgi =>
        obtain ⟨hm, htrue⟩ := ih p (t.hpar i p hp) s j hj
        rw [if_pos hgi]
        refine ⟨?_, htrue⟩
        rcases hm with hm | hm
        · subst hm
          exact Or.inr (mem_ancChain_of_parent hp)
        · exact Or.inr (ancChain_sub p (mem_ancChain_of_parent hp) j hm)
      · next hni =>
        rw [if_neg hni]
        by_cases hji : j = i
        · subst hji
          have hjlen : j < (enable t s p).1.length := by
            by_contra hlen
            rw [setE_of_length_le true (Nat.le_of_not_lt hlen)] at hj
            exact absurd (ih p (t.hpar j p hp) s j hj).2 hni
          exact ⟨Or.inl rfl, getE_setE_self true hjlen⟩
        · rw [getE_setE_ne true hji] at hj ⊢
          obtain ⟨hm, htrue⟩ := ih p (t.hpar i p hp) s j hj
          refine ⟨?_, htrue⟩
          rcases hm with hm | hm
          · subst hm
            exact Or.inr (mem_ancChain_of_parent hp)
          · exact Or.inr (ancChain_sub p (mem_ancChain_of_parent hp) j hm)

theorem enable_self {t : ObjTree} {i : Nat} :
    ∀ s : List Bool, i < s.length → getE (enable t s i).1 i = true := by
  induction i using Nat.strong_induction_on with
  | _ i ih =>
    intro s hlen
    cases hp : t.parent i with
    | none =>
      rw [enable_parent_none s hp]
      split
      · next hgi => exact hgi
      · exact getE_setE_self true hlen
    | some p =>
      rw [enable_parent_some s hp]
      split
      · next hgi => exact hgi
      · have hlen2 : i < (enable t s p).1.length := by
          rw [enable_length s]
          exact hlen
        exact getE_setE_self true hlen2

theorem enable_chain {t : ObjTree} {i : Nat} :
    ∀ s : List Bool, i < s.length →
      ∀ j ∈ ancChain t i, getE (enable t s i).1 j = true := by
  induction i using Nat.strong_induction_on with
  | _ i ih =>
    intro s hlen j hj
    cases hp : t.parent i with
    | none =>
      rw [ancChain_eq_nil hp] at hj
      cases hj
    | some p =>
      have hjlt : j < i := ancChain_lt j hj
      have hji : j ≠ i := Nat.ne_of_lt hjlt
      rw [ancChain_parent_cons hp] at hj
      have hplen : p < s.length := Nat.lt_trans (t.hpar i p hp) hlen
      have hjval : getE (enable t s p).1 j = true := by
        rcases List.mem_cons.mp hj with hjp | hjp
        · subst hjp
          exact enable_self s hplen
        · exact ih p (t.hpar i p hp) s hplen j hjp
      rw [enable_parent_some s hp]
      split
      · exact hjval
      · rwa [getE_setE_ne true hji]

theorem enable_events {t : ObjTree} {i : Nat} :
    ∀ s : List Bool, ∃ pre : List Evt,
      ((enable t s i).2 = pre ∨
        (enable t s i).2 = pre ++ [⟨i, evEnabled⟩]) ∧
      ∀ e ∈ pre, e.node ∈ ancChain t i := by
  induction i using Nat.strong_induction_on with
  | _ i ih =>
    intro s
    cases hp : t.parent i with
    | none =>
      rw [enable_parent_none s hp]
      split
      · exact ⟨[], Or.inl rfl, by simp⟩
      · exact ⟨[], Or.inr rfl, by simp⟩
    | some p =>
      obtain ⟨prep, hpre, hmem⟩ := ih p (t.hpar i p hp) s
      have hall : ∀ e ∈ (enable t s p).2, e.node ∈ ancChain t i := by
        intro e he
        rcases hpre with hpre | hpre
        · rw [hpre] at he
          exact ancChain_sub p (mem_ancChain_of_parent hp) e.node (hmem e he)
        · rw [hpre] at he
          rcases List.mem_append.mp he with he | he
          · exact ancChain_sub p (mem_ancChain_of_parent hp) e.node (hmem e he)
          · rw [List.mem_singleton] at he
            subst he
            exact mem_ancChain_of_parent hp
      rw [enable_parent_some s hp]
      split
      · exact ⟨(enable t s p).2, Or.inl rfl, hall⟩
      · exact ⟨(enable t s p).2, Or.inr rfl, hall⟩

/-! ### The parent-enabled invariant -/

/-- A node is enabled only if its parent is enabled. -/
def ParentInv (t : ObjTree) (s : List Bool) : Prop :=
  ∀ i p, t.parent i = some p → getE s i = true → getE s p = true

theorem Inv_chain {t : ObjTree} {s : List Bool} (hInv : ParentInv t s) :
    ∀ j, getE s j = true → ∀ x ∈ ancChain t j, getE s x = true := by
  intro j
  induction j using Nat.strong_induction_on with
  | _ j ih =>
    intro hj x hx
    cases hp : t.parent j with
    | none =>
      rw [ancChain_eq_nil hp] at hx
      cases hx
    | some p =>
      have hpj : getE s p = true := hInv j p hp hj
      rw [ancChain_parent_cons hp] at hx
      rcases List.mem_cons.mp hx with hx | hx
      · subst hx
        exact hpj
      · exact ih p (t.hpar j p hp) hpj x hx

/-- A disabled root has its whole subtree disabled, under the invariant. -/
theorem subtree_disabled_of_root {t : ObjTree} {s : List Bool}
    (hInv : ParentInv t s) {c : Nat} (hc : getE s c = false) :
    ∀ j, inSubtree t c j → getE s j = false := by
  intro j hj
  cases hE : getE s j
  · rfl
  · exfalso
    rcases hj with hj | hj
    · subst hj
      rw [hE] at hc
      cases hc
    · have := Inv_chain hInv j hE c hj
      rw [this] at hc
      cases hc

theorem enable_inv {t : ObjTree} {i : Nat} :
    ∀ s, ParentInv t s → ParentInv t (enable t s i).1 := by
  induction i using Nat.strong_induction_on with
  | _ i ih =>
    intro s hInv
    cases hp : t.parent i with
    | none =>
      rw [enable_parent_none s hp]
      split
      · exact hInv
      · dsimp only
        intro x q hq hx
        by_cases hxi : x = i
        · rw [hxi, hp] at hq
          cases hq
        · rw [getE_setE_ne true hxi] at hx
          have hqs := hInv x q hq hx
          by_cases hqi : q = i
          · subst hqi
            by_cases hlen : q < s.length
            · exact getE_setE_self true hlen
            · rwa [setE_of_length_le true (Nat.le_of_not_lt hlen)]
          · rwa [getE_setE_ne true hqi]
    | some p =>
      have hInvr : ParentInv t (enable t s p).1 := ih p (t.hpar i p hp) s hInv
      rw [enable_parent_some s hp]
      split
      · exact hInvr
      · next hni =>
        dsimp only
        intro x q hq hx
        by_cases hxi : x = i
        · have hqp : q = p := by
            rw [hxi, hp] at hq
            injection hq with hq
            exact hq.symm
          subst hqp
          rw [hxi] at hx
          have hilen : i < (enable t s q).1.length := by
            by_contra hlen
            rw [setE_of_length_le true (Nat.le_of_not_lt hlen)] at hx
            exact hni hx
          rw [enable_length s] at hilen
          have hqlen : q < s.length := Nat.lt_trans (t.hpar i q hp) hilen
          have hqv : getE (enable t s q).1 q = true := enable_self s hqlen
          have hqi : q ≠ i := Nat.ne_of_lt (t.hpar i q hp)
          rwa [getE_setE_ne true hqi]
        · rw [getE_setE_ne true hxi] at hx
          have hqs := hInvr x q hq hx
          by_cases hqi : q = i
          · subst hqi
            rw [hqs] at hni
            exact absurd rfl hni
          · rwa [getE_setE_ne true hqi]

def PInv (t : ObjTree) (f : Nat) : Prop :=
  ∀ s i s' ev, ParentInv t s → disableF t f s i = some (s', ev) →
    ParentInv t s' ∧ ∀ j, inSubtree t i j → getE s' j = false

def RInv (t : ObjTree) (f : Nat) : Prop :=
  ∀ s i s' ev, ParentInv t s → disableUp t f s i = some (s', ev) →
    ParentInv t s'

def QInv (t : ObjTree) (f : Nat) : Prop :=
  ∀ s l s' ev, ParentInv t s → disableChildren t f s l = some (s', ev) →
    ParentInv t s' ∧ ∀ c ∈ l, ∀ j, inSubtree t c j → getE s' j = false

theorem disableUp_inv (t : ObjTree) (f : Nat) (hP : PInv t f) :
    RInv t f := by
  intro s i s' ev hInv h
  rw [disableUp] at h
  split at h
  · next p hp =>
    by_cases hAll : allDisabled t s p = true
    · rw [if_pos hAll] at h
      exact (hP s p s' ev hInv h).1
    · rw [if_neg hAll] at h
      injection h with h
      injection h with h1 h2
      subst h1
      exact hInv
  · injection h with h
    injection h with h1 h2
    subst h1
    exact hInv

theorem disableChildren_inv (t : ObjTree) (f : Nat) (hP : PInv t f) :
    QInv t f := by
  intro s l
  induction l generalizing s with
  | nil =>
    intro s' ev hInv h
    rw [disableChildren] at h
    injection h with h
    injection h with h1 h2
    subst h1
    exact ⟨hInv, by simp⟩
  | cons c cs ihl =>
    intro s' ev hInv h
    rw [disableChildren] at h
    by_cases hc : getE s c = true
    · rw [if_pos (by simp [hc]), Option.bind_eq_some] at h
      obtain ⟨⟨s1, ev1⟩, hF, h⟩ := h
      dsimp only at h
      rw [Option.bind_eq_some] at h
      obtain ⟨⟨s2, ev2⟩, hD, h⟩ := h
      dsimp only at h
      injection h with h
      injection h with h1 h2
      subst h1
      obtain ⟨hInv1, hsub1⟩ := hP s c s1 ev1 hInv hF
      obtain ⟨hInv2, hsub2⟩ := ihl s1 s2 ev2 hInv1 hD
      have m2 : DisMono s1 s2 :=
        (disableChildren_facts t f (disableF_facts t f) s1 cs s2 ev2 hD).1
      refine ⟨hInv2, ?_⟩
      intro x hx j hj
      rcases List.mem_cons.mp hx with hx | hx
      · subst hx
        have h1 : getE s1 j = false := hsub1 j hj
        cases hE : getE s2 j
        · rfl
        · rw [m2 j hE] at h1
          cases h1
      · exact hsub2 x hx j hj
    · rw [if_neg (by simp [hc])] at h
      have hcf : getE s c = false := by
        cases hE : getE s c
        · rfl
        · exact absurd hE hc
      obtain ⟨hInv2, hsub2⟩ := ihl s s' ev hInv h
      have m2 : DisMono s s' :=
        (disableChildren_facts t f (disableF_facts t f) s cs s' ev h).1
      refine ⟨hInv2, ?_⟩
      intro x hx j hj
      rcases List.mem_cons.mp hx with hx | hx
      · subst hx
        have h1 : getE s j = false := subtree_disabled_of_root hInv hcf j hj
        cases hE : getE s' j
        · rfl
        · rw [m2 j hE] at h1
          cases h1
      · exact hsub2 x hx j hj

theorem disableF_inv (t : ObjTree) : ∀ f, PInv t f := by
  intro f
  induction f using Nat.strong_induction_on with
  | _ f ih =>
    cases f with
    | zero =>
      intro s i s' ev _ h
      rw [disableF] at h
      exact Option.noConfusion h
    | succ g =>
      have hPg : PInv t g := ih g (Nat.lt_succ_self g)
      have hQ : QInv t g := disableChildren_inv t g hPg
      have hR : RInv t g := disableUp_inv t g hPg
      intro s i s' ev hInv h
      rw [disableF] at h
      rw [Option.bind_eq_some] at h
      obtain ⟨⟨s1, ev1⟩, hC, h⟩ := h
      dsimp only at h
      obtain ⟨hInv1, hsub1⟩ := hQ s (children t i) s1 ev1 hInv hC
      have hsubtree1 : ∀ j, inSubtree t i j → j ≠ i → getE s1 j = false := by
        intro j hj hji
        rcases hj with hj | hj
        · exact absurd hj.symm hji
        · obtain ⟨c, hc1, hc2⟩ := inSubtree_step hj
          exact hsub1 c (mem_children_of_parent hc1) j hc2
      by_cases hi : getE s1 i = true
      · rw [if_pos hi, Option.bind_eq_some] at h
        obtain ⟨⟨s3, ev3⟩, hU, h⟩ := h
        dsimp only at h
        injection h with h
        injection h with h1 h2
        subst h1
        have hilen : i < s1.length := getE_true_lt hi
        have hInv2 : ParentInv t (setE s1 i false) := by
          intro x q hq hx
          have hxi : x ≠ i := by
            intro hxe
            subst hxe
            rw [getE_setE_self false hilen] at hx
            cases hx
          rw [getE_setE_ne false hxi] at hx
          have hqs := hInv1 x q hq hx
          have hqi : q ≠ i := by
            intro hqe
            subst hqe
            have : getE s1 x = false := by
              apply hsub1 x (mem_children_of_parent hq)
              exact inSubtree_self t x
            rw [this] at hx
            cases hx
          rwa [getE_setE_ne false hqi]
        have hsub2 : ∀ j, inSubtree t i j → getE (setE s1 i false) j = false := by
          intro j hj
          by_cases hji : j = i
          · subst hji
            exact getE_setE_self false hilen
          · rw [getE_setE_ne false hji]
            exact hsubtree1 j hj hji
        have hInv3 : ParentInv t s3 := hR (setE s1 i false) i s3 ev3 hInv2 hU
        have mR : DisMono (setE s1 i false) s3 :=
          (disableUp_facts t g (disableF_facts t g) (setE s1 i false) i s3
            ev3 hU).1
        refine ⟨hInv3, ?_⟩
        intro j hj
        have h2 : getE (setE s1 i false) j = false := hsub2 j hj
        cases hE : getE s3 j
        · rfl
        · rw [mR j hE] at h2
          cases h2
      · have hif : getE s1 i = false := by
          cases hE : getE s1 i
          · rfl
          · exact absurd hE hi
        rw [if_neg hi, Option.bind_eq_some] at h
        obtain ⟨⟨s3, ev3⟩, hU, h⟩ := h
        dsimp only at h
        injection h with h
        injection h with h1 h2
        subst h1
        have hsub2 : ∀ j, inSubtree t i j → getE s1 j = false := by
          intro j hj
          by_cases hji : j = i
          · subst hji
            exact hif
          · exact hsubtree1 j hj hji
        have hInv3 : ParentInv t s3 := hR s1 i s3 ev3 hInv1 hU
        have mR : DisMono s1 s3 :=
          (disableUp_facts t g (disableF_facts t g) s1 i s3 ev3 hU).1
        refine ⟨hInv3, ?_⟩
        intro j hj
        have h2 : getE s1 j = false := hsub2 j hj
        cases hE : getE s3 j
        · rfl
        · rw [mR j hE] at h2
          cases h2

/-! ## `GenericAttribute._set_value` (attributes.py lines 314-367)

The attribute's own record: value, unit and the four timestamps.  The
value and unit types are parameters (`type_conversion` is the identity on
correctly-typed values, which is what the claims quantify over).
Timestamps are `Option Int`. -/

structure AttrRec (V : Type) (U : Type) where
  value : Option V
  unit : Option U
  lastChanged : Option Int
  lastChangedLocal : Option Int
  lastUpdated : Option Int
  lastUpdatedLocal : Option Int
  deriving DecidableEq, Repr

/-- The final unit-change check and `notify(flags)` of `_set_value`
(attributes.py lines 363-367). -/
def unitStep {V U : Type} [DecidableEq U] (r : AttrRec V U) (s : List Bool)
    (ev : List Evt) (fl : Nat) (u : Option U) (a : Nat) :
    AttrRec V U × List Bool × List Evt :=
  if u ≠ none ∧ r.unit ≠ u then
    ({ r with unit := u }, s, ev ++ [⟨a, fl ||| evValueChanged⟩])
  else (r, s, ev ++ [⟨a, fl⟩])

/-- The timestamp bookkeeping of `_set_value` (attributes.py lines
342-351): the `UPDATED` flag and `last_updated_local`, then the
`UPDATED_NEW_MEASUREMENT` flag and `last_updated`.  Returns the updated
record and the flags raised so far. -/
def tsStep {V U : Type} (r : AttrRec V U) (measured : Option Int)
    (now : Int) : AttrRec V U × Nat :=
  let st1 : AttrRec V U × Nat :=
    if r.lastUpdatedLocal ≠ some now then
      ({ r with lastUpdatedLocal := some now }, evUpdated)
    else (r, 0)
  match measured with
  | some m =>
    if st1.1.lastUpdated ≠ some m then
      ({ st1.1 with lastUpdated := some m },
        st1.2 ||| evUpdatedNewMeasurement)
    else ({ st1.1 with lastUpdated := some now }, st1.2)
  | none => ({ st1.1 with lastUpdated := some now }, st1.2)

/-- The stale-data guard of `_set_value` (attributes.py line 338):
`self.last_updated is not None and measured is not None and
self.last_updated > measured`. -/
def isStale (lastUpd measured : Option Int) : Bool :=
  match lastUpd, measured with
  | some lu, some m => decide (lu > m)
  | _, _ => false

/-- `_set_value(value, measured, unit)` on attribute `a`: the stale-data
guard, the timestamp bookkeeping, the value-change branch driving the
`enabled` setter (hence the tree state and the events), the unit change,
and the final `notify(flags)`.  Returns `none` only if the disable
recursion runs out of fuel. -/
def setValue {V U : Type} [DecidableEq V] [DecidableEq U] (t : ObjTree)
    (fuel : Nat) (a : Nat) (r : AttrRec V U) (s : List Bool) (v : Option V)
    (measured : Option Int) (u : Option U) (now : Int) :
    Option (AttrRec V U × List Bool × List Evt) :=
  if isStale r.lastUpdated measured = true then
    some (r, s, [])
  else
    let st2 : AttrRec V U × Nat := tsStep r measured now
    if st2.1.value ≠ v then
      let r3 : AttrRec V U :=
        { st2.1 with value := v, lastChangedLocal := some now,
                     lastChanged := some (measured.getD now) }
      match v with
      | some _ =>
        some (unitStep r3 (enable t s a).1 (enable t s a).2
          (st2.2 ||| evValueChanged) u a)
      | none =>
        (disableF t fuel s a).bind fun rs =>
          some (unitStep r3 rs.1 rs.2 (st2.2 ||| evValueChanged) u a)
    else
      some (unitStep st2.1 s [] st2.2 u a)

theorem tsStep_value {V U : Type} (r : AttrRec V U) (measured : Option Int)
    (now : Int) : (tsStep r measured now).1.value = r.value ∧
      (tsStep r measured now).1.unit = r.unit := by
  cases measured with
  | none =>
    rw [tsStep]
    split
    · exact ⟨rfl, rfl⟩
    · exact ⟨rfl, rfl⟩
  | some m =>
    rw [tsStep]
    dsimp only
    split
    · split
      · exact ⟨rfl, rfl⟩
      · exact ⟨rfl, rfl⟩
    · split
      · exact ⟨rfl, rfl⟩
      · exact ⟨rfl, rfl⟩

theorem tsStep_lastUpdated_new {V U : Type} {r : AttrRec V U} {m now : Int}
    (hne : r.lastUpdated ≠ some m) :
    (tsStep r (some m) now).1.lastUpdated = some m := by
  rw [tsStep]
  dsimp only
  split
  all_goals simp_all

theorem setValue_stale {V U : Type} [DecidableEq V] [DecidableEq U]
    {t : ObjTree} {fuel a : Nat} {r : AttrRec V U} {s : List Bool}
    {v : Option V} {u : Option U} {now m lu : Int}
    (hlu : r.lastUpdated = some lu) (hm : m < lu) :
    setValue t fuel a r s v (some m) u now = some (r, s, []) := by
  have hc : isStale r.lastUpdated (some m) = true := by
    rw [hlu, isStale]
    simp [hm]
  rw [setValue, if_pos hc]

theorem unitStep_value {V U : Type} [DecidableEq U] (r : AttrRec V U)
    (s : List Bool) (ev : List Evt) (fl : Nat) (u : Option U) (a : Nat) :
    (unitStep r s ev fl u a).1.value = r.value ∧
      (unitStep r s ev fl u a).1.lastUpdated = r.lastUpdated ∧
      (unitStep r s ev fl u a).2.1 = s := by
  rw [unitStep]
  split
  · exact ⟨rfl, rfl, rfl⟩
  · exact ⟨rfl, rfl, rfl⟩


theorem setValue_measured_new {V U : Type} [DecidableEq V] [DecidableEq U]
    {t : ObjTree} {fuel a : Nat} {r : AttrRec V U} {s : List Bool}
    {v : Option V} {u : Option U} {now m : Int}
    {r' : AttrRec V U} {s' : List Bool} {ev : List Evt}
    (hstale : ∀ lu, r.lastUpdated = some lu → ¬ lu > m)
    (hne : r.lastUpdated ≠ some m)
    (h : setValue t fuel a r s v (some m) u now = some (r', s', ev)) :
    r'.value = v ∧ r'.lastUpdated = some m := by
  rw [setValue] at h
  have hcond : isStale r.lastUpdated (some m) = false := by
    cases hlu : r.lastUpdated with
    | none => rfl
    | some lu =>
      rw [isStale]
      simpa using hstale lu hlu
  rw [hcond] at h
  simp only [Bool.false_eq_true, if_false] at h
  split at h
  · next hval =>
    split at h
    · next x hx =>
      injection h with h
      have hfst := congrArg Prod.fst h
      dsimp only at hfst
      rw [← hfst]
      refine ⟨?_, ?_⟩
      · rw [(unitStep_value _ _ _ _ u a).1]
      · rw [(unitStep_value _ _ _ _ u a).2.1]
        exact tsStep_lastUpdated_new hne
    · rw [Option.bind_eq_some] at h
      obtain ⟨⟨s4, ev4⟩, hF, h⟩ := h
      dsimp only at h
      injection h with h
      have hfst := congrArg Prod.fst h
      dsimp only at hfst
      rw [← hfst]
      refine ⟨?_, ?_⟩
      · rw [(unitStep_value _ _ _ _ u a).1]
      · rw [(unitStep_value _ _ _ _ u a).2.1]
        exact tsStep_lastUpdated_new hne
  · next hval =>
    injection h with h
    have hfst := congrArg Prod.fst h
    dsimp only at hfst
    rw [← hfst]
    refine ⟨?_, ?_⟩
    · rw [(unitStep_value _ _ _ _ u a).1]
      exact not_ne_iff.mp hval
    · rw [(unitStep_value _ _ _ _ u a).2.1]
      exact tsStep_lastUpdated_new hne

/-- C9: the `enabled == (value is not None)` invariant is preserved by
every completing `_set_value` call: when the value changes, the
value-change branch drives the `enabled` setter to the right state
whatever held before; when it does not change (including a call discarded
by the staleness guard), record and tree state are untouched, so the
invariant carries over from the precondition. -/
theorem setValue_enabled_invariant {V U : Type} [DecidableEq V]
    [DecidableEq U] {t : ObjTree} {fuel a : Nat} {r : AttrRec V U}
    {s : List Bool} {v : Option V} {measured : Option Int} {u : Option U}
    {now : Int} {r' : AttrRec V U} {s' : List Bool} {ev : List Evt}
    (ha : a < s.length)
    (hpre : (getE s a = true) ↔ r.value ≠ none)
    (h : setValue t fuel a r s v measured u now = some (r', s', ev)) :
    (getE s' a = true) ↔ r'.value ≠ none := by
  rw [setValue] at h
  split at h
  · injection h with h
    injection h with h1 h2
    injection h2 with h2 h3
    subst h1
    subst h2
    exact hpre
  · cases v with
    | some x =>
      split at h
      · next hval =>
        dsimp only at h
        split at h
        · next hval2 =>
          injection h with h
          have hfst := congrArg Prod.fst h
          dsimp only at hfst
          have hs := congrArg (fun z => z.2.1) h
          dsimp only at hs
          rw [← hfst, ← hs]
          rw [(unitStep_value _ _ _ _ u a).1,
            (unitStep_value _ _ _ _ u a).2.2]
          have he : getE (enable t s a).1 a = true := enable_self s ha
          simp [he]
        · next hval2 =>
          injection h with h
          have hfst := congrArg Prod.fst h
          dsimp only at hfst
          have hs := congrArg (fun z => z.2.1) h
          dsimp only at hs
          rw [← hfst, ← hs]
          rw [(unitStep_value _ _ _ _ u a).1,
            (unitStep_value _ _ _ _ u a).2.2]
          have hveq : (tsStep r measured now).1.value = some x :=
            not_ne_iff.mp hval2
          rw [(tsStep_value r measured now).1] at hveq
          rw [(tsStep_value r measured now).1, hveq]
          rw [hveq] at hpre
          exact hpre
      · next hval => exact Option.noConfusion hval
    | none =>
      split at h
      · next hval => exact Option.noConfusion hval
      · next hval =>
        dsimp only at h
        split at h
        · next hval2 =>
          rw [Option.bind_eq_some] at h
          obtain ⟨⟨s4, ev4⟩, hF, h⟩ := h
          dsimp only at h
          injection h with h
          have hfst := congrArg Prod.fst h
          dsimp only at hfst
          have hs := congrArg (fun z => z.2.1) h
          dsimp only at hs
          rw [← hfst, ← hs]
          rw [(unitStep_value _ _ _ _ u a).1,
            (unitStep_value _ _ _ _ u a).2.2]
          have hd : getE s4 a = false :=
            (disableF_facts t fuel s a s4 ev4 hF).2.1
          simp [hd]
        · next hval2 =>
          injection h with h
          have hfst := congrArg Prod.fst h
          dsimp only at hfst
          have hs := congrArg (fun z => z.2.1) h
          dsimp only at hs
          rw [← hfst, ← hs]
          rw [(unitStep_value _ _ _ _ u a).1,
            (unitStep_value _ _ _ _ u a).2.2]
          have hveq : (tsStep r measured now).1.value = none :=
            not_ne_iff.mp hval2
          rw [(tsStep_value r measured now).1] at hveq
          rw [(tsStep_value r measured now).1, hveq]
          rw [hveq] at hpre
          exact hpre

theorem setValue_tree_effect {V U : Type} [DecidableEq V] [DecidableEq U]
    {t : ObjTree} {fuel a : Nat} {r : AttrRec V U} {s : List Bool}
    {v : Option V} {measured : Option Int} {u : Option U} {now : Int}
    {r' : AttrRec V U} {s' : List Bool} {ev : List Evt}
    (h : setValue t fuel a r s v measured u now = some (r', s', ev)) :
    s' = s ∨ s' = (enable t s a).1 ∨
      ∃ ev2, disableF t fuel s a = some (s', ev2) := by
  rw [setValue] at h
  split at h
  · injection h with h
    injection h with h1 h2
    injection h2 with h2 h3
    subst h2
    exact Or.inl rfl
  · cases v with
    | some x =>
      split at h
      · next hval =>
        dsimp only at h
        split at h
        · injection h with h
          have hs := congrArg (fun z => z.2.1) h
          dsimp only at hs
          rw [← hs, (unitStep_value _ _ _ _ u a).2.2]
          exact Or.inr (Or.inl rfl)
        · injection h with h
          have hs := congrArg (fun z => z.2.1) h
          dsimp only at hs
          rw [← hs, (unitStep_value _ _ _ _ u a).2.2]
          exact Or.inl rfl
      · next hval => exact Option.noConfusion hval
    | none =>
      split at h
      · next hval => exact Option.noConfusion hval
      · next hval =>
        dsimp only at h
        split at h
        · rw [Option.bind_eq_some] at h
          obtain ⟨⟨s4, ev4⟩, hF, h⟩ := h
          dsimp only at h
          injection h with h
          have hs := congrArg (fun z => z.2.1) h
          dsimp only at hs
          rw [← hs, (unitStep_value _ _ _ _ u a).2.2]
          exact Or.inr (Or.inr ⟨ev4, hF⟩)
        · injection h with h
          have hs := congrArg (fun z => z.2.1) h
          dsimp only at hs
          rw [← hs, (unitStep_value _ _ _ _ u a).2.2]
          exact Or.inl rfl

/-! ### Concrete tree construction and reachable states -/

/-- Wellformedness check for a parent table: every listed parent index is
smaller than its child. -/
def parentsOK (pl : List (Option Nat)) : Bool :=
  (List.range pl.length).all (fun i =>
    match pl.getD i none with
    | some p => decide (p < i)
    | none => true)

def mkTree (pl : List (Option Nat)) (h : parentsOK pl = true) : ObjTree where
  n := pl.length
  parent := fun i => pl.getD i none
  hpar := by
    intro i p hp
    dsimp only at hp
    by_cases hi : i < pl.length
    · have h2 := (List.all_eq_true.mp h) i (List.mem_range.mpr hi)
      rw [hp] at h2
      simpa using h2
    · have : pl.getD i none = none := by
        simp [List.getD, List.getElem?_eq_none (Nat.le_of_not_lt hi)]
      rw [this] at hp
      cases hp
  hdom := by
    intro i hi
    simp [List.getD, List.getElem?_eq_none hi]

/-- States of the enabled flags reachable by enabling and disabling nodes
and setting attribute values, from the initial all-disabled state.  (The
value type of the attribute records is immaterial to the tree state; it
is fixed to `Int` here.) -/
inductive Reachable (t : ObjTree) : List Bool → Prop where
  | init : Reachable t (List.replicate t.n false)
  | en : ∀ s i, Reachable t s → Reachable t (enable t s i).1
  | dis : ∀ s f i s' ev, Reachable t s →
      disableF t f s i = some (s', ev) → Reachable t s'
  | setv : ∀ s fuel a (r : AttrRec Int Unit) v measured u now r' s' ev,
      Reachable t s →
      setValue t fuel a r s v measured u now = some (r', s', ev) →
      Reachable t s'

/-- C3: in every reachable state a node is enabled only if its parent is
enabled; enabling a node enables all its ancestors, with every
notification before the node's own `ENABLED` concerning an ancestor; and
disabling one of several enabled siblings leaves the parent (and the
other sibling) enabled, because the upward propagation only fires when
every child of the parent is disabled. -/
theorem enable_disable_invariant_and_order :
    (∀ (t : ObjTree) (s : List Bool), Reachable t s → ParentInv t s) ∧
    (∀ (t : ObjTree) (s : List Bool) (i : Nat), i < s.length →
      (∀ j ∈ ancChain t i, getE (enable t s i).1 j = true) ∧
      getE (enable t s i).1 i = true ∧
      (∃ pre, ((enable t s i).2 = pre ∨
          (enable t s i).2 = pre ++ [⟨i, evEnabled⟩]) ∧
        ∀ e ∈ pre, e.node ∈ ancChain t i)) ∧
    (∀ (t : ObjTree) (f : Nat) (s : List Bool) (i p c2 : Nat)
        (s' : List Bool) (ev : List Evt),
      t.parent i = some p → t.parent c2 = some p → c2 ≠ i →
      getE s i = true → getE s c2 = true → getE s p = true →
      disableF t f s i = some (s', ev) →
      getE s' p = true ∧ getE s' c2 = true) := by
  refine ⟨?_, ?_, ?_⟩
  · intro t s hreach
    induction hreach with
    | init =>
      intro i p _ hi
      rw [getE_replicate] at hi
      cases hi
    | en s i _ ih => exact enable_inv s ih
    | dis s f i s' ev _ hdis ih =>
      exact (disableF_inv t f s i s' ev ih hdis).1
    | setv s fuel a r v measured u now r' s' ev _ hset ih =>
      rcases setValue_tree_effect hset with he | he | ⟨ev2, he⟩
      · rw [he]
        exact ih
      · rw [he]
        exact enable_inv s ih
      · exact (disableF_inv t fuel s a s' ev2 ih he).1
  · intro t s i hlen
    exact ⟨enable_chain s hlen, enable_self s hlen, enable_events s⟩
  · intro t f s i p c2 s' ev hpi hpc2 hne hi hc2 hp h
    have hfacts := disableF_facts t f s i s' ev h
    have hplti : p < i := t.hpar i p hpi
    have hpltc : p < c2 := t.hpar c2 p hpc2
    have hc2keep : getE s' c2 = getE s c2 := by
      by_cases hch : getE s' c2 = getE s c2
      · exact hch
      · exfalso
        obtain ⟨_, hloc⟩ := hfacts.2.2.2.2.1 c2 hch
        rcases hloc with hloc | hloc
        · rcases hloc with hloc | hloc
          · exact hne hloc.symm
          · rw [ancChain_parent_cons hpc2] at hloc
            rcases List.mem_cons.mp hloc with hloc | hloc
            · subst hloc
              exact Nat.lt_irrefl i hplti
            · exact Nat.lt_asymm hplti (ancChain_lt i hloc)
        · obtain ⟨hmem, _⟩ := hloc
          rw [ancChain_parent_cons hpi] at hmem
          rcases List.mem_cons.mp hmem with hmem | hmem
          · subst hmem
            exact Nat.lt_irrefl c2 hpltc
          · exact Nat.lt_asymm hpltc (ancChain_lt c2 hmem)
    have hpkeep : getE s' p = getE s p := by
      by_cases hch : getE s' p = getE s p
      · exact hch
      · exfalso
        obtain ⟨_, hloc⟩ := hfacts.2.2.2.2.1 p hch
        rcases hloc with hloc | hloc
        · rcases hloc with hloc | hloc
          · subst hloc
            exact Nat.lt_irrefl i hplti
          · exact Nat.lt_asymm hplti (ancChain_lt i hloc)
        · obtain ⟨_, hall⟩ := hloc
          have := (List.all_eq_true.mp hall) c2 (mem_children_of_parent hpc2)
          rw [hc2keep, hc2] at this
          cases this
    rw [hpkeep, hc2keep]
    exact ⟨hp, hc2⟩

/-! ### Unfolding equations for the disable recursion, concrete trees, and
concrete runs used by the witnesses -/

theorem disableF_step (t : ObjTree) (f : Nat) (s : List Bool) (i : Nat) :
    disableF t (f + 1) s i =
      (disableChildren t f s (children t i)).bind fun r1 =>
        if getE r1.1 i then
          (disableUp t f (setE r1.1 i false) i).bind fun r3 =>
            some (r3.1, (r1.2 ++ [⟨i, evDisabled⟩]) ++ r3.2)
        else
          (disableUp t f r1.1 i).bind fun r3 => some (r3.1, r1.2 ++ r3.2) := by
  rw [disableF]

theorem disableChildren_nil (t : ObjTree) (f : Nat) (s : List Bool) :
    disableChildren t f s [] = some (s, []) := by
  rw [disableChildren]

theorem disableChildren_cons (t : ObjTree) (f : Nat) (s : List Bool)
    (c : Nat) (cs : List Nat) :
    disableChildren t f s (c :: cs) =
      if getE s c then
        (disableF t f s c).bind fun r1 =>
          (disableChildren t f r1.1 cs).bind fun r2 =>
            some (r2.1, r1.2 ++ r2.2)
      else disableChildren t f s cs := by
  rw [disableChildren]

theorem disableUp_parent_some {t : ObjTree} {i p : Nat} (f : Nat)
    (s : List Bool) (h : t.parent i = some p) :
    disableUp t f s i =
      if allDisabled t s p then disableF t f s p else some (s, []) := by
  rw [disableUp]
  split
  · next q hq =>
    rw [h] at hq
    cases hq
    rfl
  · next hq =>
    rw [h] at hq
    cases hq

theorem disableUp_parent_none {t : ObjTree} {i : Nat} (f : Nat)
    (s : List Bool) (h : t.parent i = none) :
    disableUp t f s i = some (s, []) := by
  rw [disableUp]
  split
  · next q hq =>
    rw [h] at hq
    cases hq
  · rfl

/-- Two nodes: a root object `0` with a single attribute child `1`. -/
def tree2 : ObjTree := mkTree [none, some 0] (by decide)

/-- Four nodes: root `0`, children `1` and `2`, and `3` a child of `1`. -/
def tree4 : ObjTree := mkTree [none, some 0, some 0, some 1] (by decide)

/-- Disabling node `1` of `tree4` while its sibling `2` is enabled: the
parent `0` stays enabled and no upward propagation fires. -/
theorem disableF_tree4_eval :
    disableF tree4 5 [true, true, true, false] 1 =
      some ([true, false, true, false], [⟨1, evDisabled⟩]) := by
  have hc1 : children tree4 1 = [3] := by decide
  show disableF tree4 (4 + 1) [true, true, true, false] 1 = _
  rw [disableF_step, hc1, disableChildren_cons, disableChildren_nil,
    if_neg (by decide : ¬ getE [true, true, true, false] 3 = true)]
  simp only [Option.some_bind]
  rw [if_pos (by decide : getE [true, true, true, false] 1 = true),
    (by decide : setE [true, true, true, false] 1 false =
      [true, false, true, false]),
    disableUp_parent_some 4 [true, false, true, false]
      (by decide : tree4.parent 1 = some 0),
    if_neg (by decide :
      ¬ allDisabled tree4 [true, false, true, false] 0 = true)]
  decide

theorem enable_disable_invariant_and_order_witness :
    ParentInv tree4 (List.replicate tree4.n false) ∧
    ((3 : Nat) < ([false, false, false, false] : List Bool).length ∧
      getE (enable tree4 [false, false, false, false] 3).1 3 = true) ∧
    (tree4.parent 1 = some 0 ∧ tree4.parent 2 = some 0 ∧ (2 : Nat) ≠ 1 ∧
      getE [true, true, true, false] 1 = true ∧
      getE [true, true, true, false] 2 = true ∧
      getE [true, true, true, false] 0 = true ∧
      getE [true, false, true, false] 0 = true ∧
      getE [true, false, true, false] 2 = true) := by
  refine ⟨enable_disable_invariant_and_order.1 tree4 _ Reachable.init,
    ⟨by decide, (enable_disable_invariant_and_order.2.1 tree4
      [false, false, false, false] 3 (by decide)).2.1⟩, ?_⟩
  have h3 := enable_disable_invariant_and_order.2.2 tree4 5
    [true, true, true, false] 1 0 2 [true, false, true, false]
    [⟨1, evDisabled⟩] (by decide) (by decide) (by decide) (by decide)
    (by decide) (by decide) disableF_tree4_eval
  exact ⟨by decide, by decide, by decide, by decide, by decide, by decide,
    h3.1, h3.2⟩

/-- Disabling the already-disabled attribute `1` of `tree2` while the
parent `0` is enabled: no event for `1`, but `0` gets disabled. -/
theorem disableF_tree2_eval :
    disableF tree2 3 [true, false] 1 =
      some ([false, false], [⟨0, evDisabled⟩]) := by
  have hc0 : children tree2 0 = [1] := by decide
  have hc1 : children tree2 1 = [] := by decide
  show disableF tree2 (2 + 1) [true, false] 1 = _
  rw [disableF_step, hc1, disableChildren_nil]
  simp only [Option.some_bind]
  rw [if_neg (by decide : ¬ getE [true, false] 1 = true),
    disableUp_parent_some 2 [true, false]
      (by decide : tree2.parent 1 = some 0),
    if_pos (by decide : allDisabled tree2 [true, false] 0 = true),
    (by norm_num : (2 : Nat) = 1 + 1),
    disableF_step, hc0, disableChildren_cons, disableChildren_nil,
    if_neg (by decide : ¬ getE [true, false] 1 = true)]
  simp only [Option.some_bind]
  rw [if_pos (by decide : getE [true, false] 0 = true),
    (by decide : setE [true, false] 0 false = [false, false]),
    disableUp_parent_none 1 [false, false]
      (by decide : tree2.parent 0 = none)]
  decide

/-- C10: writing `enabled = False` to an attribute that is already
disabled (attributes.py lines 497-505) fires no `DISABLED` event for the
attribute itself — the `if self.__enabled:` guard skips the notify — but
the upward check still runs unconditionally, so a still-enabled parent
whose children are all disabled gets disabled by the assignment. -/
theorem disable_disabled_attribute_disables_parent
    (t : ObjTree) (f : Nat) (a p : Nat) (s s' : List Bool) (ev : List Evt)
    (hleaf : children t a = []) (hpar : t.parent a = some p)
    (ha : getE s a = false) (hall : allDisabled t s p = true)
    (hp : getE s p = true)
    (h : disableF t f s a = some (s', ev)) :
    getE s' p = false ∧ (∀ e ∈ ev, e.node ≠ a) ∧ Evt.mk p evDisabled ∈ ev := by
  have hnotA : ∀ e ∈ ev, e.node ≠ a := by
    intro e he hna
    have hen := ((disableF_facts t f s a s' ev h).2.2.2.1 e he).2
    rw [hna, ha] at hen
    cases hen
  cases f with
  | zero =>
    rw [disableF] at h
    exact Option.noConfusion h
  | succ g =>
    rw [disableF_step, hleaf, disableChildren_nil] at h
    simp only [Option.some_bind] at h
    rw [if_neg (by simp [ha]), disableUp_parent_some g s hpar,
      if_pos hall] at h
    rw [Option.bind_eq_some] at h
    obtain ⟨⟨s3, ev3⟩, hF, h⟩ := h
    dsimp only at h
    injection h with h
    injection h with h1 h2
    subst h1
    rw [List.nil_append] at h2
    subst h2
    refine ⟨(disableF_facts t g s p s3 ev3 hF).2.1, hnotA, ?_⟩
    cases g with
    | zero =>
      rw [disableF] at hF
      exact Option.noConfusion hF
    | succ g2 =>
      have hnoop : disableChildren t g2 s (children t p) = some (s, []) := by
        apply disableChildren_noop
        intro c hc
        have hcd := (List.all_eq_true.mp hall) c hc
        simpa using hcd
      rw [disableF_step, hnoop] at hF
      simp only [Option.some_bind] at hF
      rw [if_pos hp] at hF
      rw [Option.bind_eq_some] at hF
      obtain ⟨⟨s5, ev5⟩, hU, hF⟩ := hF
      dsimp only at hF
      injection hF with hF
      injection hF with h3 h4
      rw [List.nil_append] at h4
      subst h4
      simp

theorem disable_disabled_attribute_disables_parent_witness :
    children tree2 1 = [] ∧ tree2.parent 1 = some 0 ∧
    getE [true, false] 1 = false ∧
    allDisabled tree2 [true, false] 0 = true ∧
    getE [true, false] 0 = true ∧
    (getE [false, false] 0 = false ∧
      (∀ e ∈ [Evt.mk 0 evDisabled], e.node ≠ 1) ∧
      Evt.mk 0 evDisabled ∈ [Evt.mk 0 evDisabled]) :=
  ⟨by decide, by decide, by decide, by decide, by decide,
    disable_disabled_attribute_disables_parent tree2 3 1 0 [true, false]
      [false, false] [Evt.mk 0 evDisabled] (by decide) (by decide)
      (by decide) (by decide) (by decide) disableF_tree2_eval⟩

theorem enable_tree2_0_eval :
    enable tree2 [false, false] 0 = ([true, false], [⟨0, evEnabled⟩]) := by
  rw [enable_parent_none _ (by decide : tree2.parent 0 = none)]
  decide

theorem enable_tree2_1_eval :
    enable tree2 [false, false] 1 =
      ([true, true], [⟨0, evEnabled⟩, ⟨1, evEnabled⟩]) := by
  rw [enable_parent_some _ (by decide : tree2.parent 1 = some 0),
    enable_tree2_0_eval]
  decide

theorem enable_tree2_0_noop_eval :
    enable tree2 [true, true] 0 = ([true, true], []) := by
  rw [enable_parent_none _ (by decide : tree2.parent 0 = none)]
  decide

theorem enable_tree2_1_noop_eval :
    enable tree2 [true, true] 1 = ([true, true], []) := by
  rw [enable_parent_some _ (by decide : tree2.parent 1 = some 0),
    enable_tree2_0_noop_eval]
  decide

/-- A fresh attribute record: no value, no unit, no timestamps. -/
def rC : AttrRec Int Unit := ⟨none, none, none, none, none, none⟩

/-- The record after `_set_value(1)` on `rC` at local time 100. -/
def rC1 : AttrRec Int Unit :=
  ⟨some 1, none, some 100, some 100, some 100, some 100⟩

theorem setValue_tree2_eval :
    setValue tree2 3 1 rC [false, false] (some 1) none none 100 =
      some (rC1, [true, true],
        [⟨0, evEnabled⟩, ⟨1, evEnabled⟩, ⟨1, 12⟩]) := by
  simp only [setValue]
  rw [enable_tree2_1_eval]
  decide

theorem setValue_enabled_invariant_witness :
    ((1 : Nat) < ([false, false] : List Bool).length) ∧
    ((getE [false, false] 1 = true) ↔ rC.value ≠ none) ∧
    ((getE [true, true] 1 = true) ↔ rC1.value ≠ none) :=
  ⟨by decide, by decide,
    setValue_enabled_invariant (by decide) (by decide) setValue_tree2_eval⟩

/-- An attribute record whose stored measurement time (10) is newer than
both incoming measurements of the scenario. -/
def r0c : AttrRec Int Unit := ⟨some 0, none, none, none, some 10, none⟩

/-- C2 counterexample: the spec's staleness-idempotence scenario read
literally fails when
the attribute's `last_updated` is already newer than the *first* call's
`measured`: then the first call is itself discarded and the value never
becomes `v1`.  Here `t1 = 3 < t2 = 5`, yet after both calls the value is
still `0`, not `v1 = 1`. -/
theorem stale_idempotence_counterexample :
    setValue tree2 3 1 r0c [true, true] (some 1) (some 5) none 100 =
      some (r0c, [true, true], []) ∧
    setValue tree2 3 1 r0c [true, true] (some 2) (some 3) none 101 =
      some (r0c, [true, true], []) ∧
    r0c.value ≠ some 1 ∧ (3 : Int) < 5 :=
  ⟨by decide, by decide, by decide, by decide⟩

/-- C2 (amended): the staleness guard discards an update whose `measured`
is older than the stored `last_updated` without touching the record, the
tree state or the notifications; and the two-call idempotence scenario
holds whenever the first call is not itself discarded (its `measured` is
at least as new as any stored `last_updated` and differs from it, so the
first call commits `v1` and stores `last_updated = t2`; the second call
with `t1 < t2` is then a no-op). -/
theorem stale_guard_discards_and_idempotence :
    (∀ (t : ObjTree) (fuel a : Nat) (r : AttrRec Int Unit) (s : List Bool)
        (v : Option Int) (u : Option Unit) (now m lu : Int),
      r.lastUpdated = some lu → lu > m →
      setValue t fuel a r s v (some m) u now = some (r, s, [])) ∧
    (∀ (t : ObjTree) (fuel fuel2 a : Nat) (r r1 : AttrRec Int Unit)
        (s s1 : List Bool) (v1 v2 : Option Int) (u : Option Unit)
        (now now2 t1 t2 : Int) (ev : List Evt),
      (∀ lu, r.lastUpdated = some lu → lu ≤ t2) →
      r.lastUpdated ≠ some t2 →
      setValue t fuel a r s v1 (some t2) u now = some (r1, s1, ev) →
      t1 < t2 →
      r1.value = v1 ∧
      setValue t fuel2 a r1 s1 v2 (some t1) u now2 = some (r1, s1, [])) := by
  constructor
  · intro t fuel a r s v u now m lu hlu hgt
    exact setValue_stale hlu hgt
  · intro t fuel fuel2 a r r1 s s1 v1 v2 u now now2 t1 t2 ev hle hne h ht
    obtain ⟨hv, hlu1⟩ :=
      setValue_measured_new (fun lu hlu => not_lt.mpr (hle lu hlu)) hne h
    exact ⟨hv, setValue_stale hlu1 ht⟩

/-- An attribute record with a value but no timestamps yet. -/
def rB : AttrRec Int Unit := ⟨some 0, none, none, none, none, none⟩

/-- The record after `_set_value(1, measured=5)` on `rB` at local time
100. -/
def rB1 : AttrRec Int Unit := ⟨some 1, none, some 5, some 100, some 5, some 100⟩

theorem setValue_tree2_measured_eval :
    setValue tree2 3 1 rB [true, true] (some 1) (some 5) none 100 =
      some (rB1, [true, true], [⟨1, 28⟩]) := by
  simp only [setValue]
  rw [enable_tree2_1_noop_eval]
  decide

theorem stale_guard_discards_and_idempotence_witness :
    (r0c.lastUpdated = some 10 ∧ (10 : Int) > 5 ∧
      setValue tree2 3 1 r0c [true, true] (some 7) (some 5) none 100 =
        some (r0c, [true, true], [])) ∧
    ((2 : Int) < 5 ∧ rB1.value = some 1 ∧
      setValue tree2 4 1 rB1 [true, true] (some 9) (some 2) none 101 =
        some (rB1, [true, true], [])) := by
  constructor
  · exact ⟨by decide, by decide,
      stale_guard_discards_and_idempotence.1 tree2 3 1 r0c [true, true]
        (some 7) none 100 5 10 (by decide) (by decide)⟩
  · have h2 := stale_guard_discards_and_idempotence.2 tree2 3 4 1 rB rB1
      [true, true] [true, true] (some 1) (some 9) none 100 101 2 5
      [⟨1, 28⟩] (by intro lu hlu; exact Option.noConfusion hlu) (by decide)
      setValue_tree2_measured_eval (by decide)
    exact ⟨by decide, h2.1, h2.2⟩

/-! ## The ClimatizationStartStopCommand value setter
(command_impl.py lines 37-84)

The string branch of the setter tokenizes the input with
`new_value.strip().split(sep=' ')` and runs an argparse parser with one
positional (`command`, `type=ClimatizationStartStopCommand.Command`) and
two optionals (`--target-temperature`, `type=float`;
`--target-temperature-unit`, `type=Temperature`).  Without a
`Climatization` parent the defaults are `25` and `Temperature.C`
(lines 54-56).  A parse error is wrapped into a `SetterError` carrying
the parser message and the usage text (line 64); a successful parse is
committed through `_set_value` (`GenericCommand._is_changeable` is
`True`).  The argparse core (token loop, `type=` conversion, choices)
and Python's `float` and enum-by-value lookup are modelled here; enum
lookup uses the declared enum *values* of units.py lines 34-38. -/

inductive ClimCommand where
  | START
  | STOP
  deriving DecidableEq

inductive TempUnit where
  | C
  | F
  | K
  | INVALID
  | UNKNOWN
  deriving DecidableEq

/-- `ClimatizationStartStopCommand.Command(token)`: Python enum lookup by
value (command_impl.py lines 94-95: START = 'start', STOP = 'stop'). -/
def commandFromString (s : List Char) : Option ClimCommand :=
  if s = "start".toList then some ClimCommand.START
  else if s = "stop".toList then some ClimCommand.STOP
  else none

/-- `Temperature(token)`: Python enum lookup by value — the values are
'°C', '°F', '°K', 'invalid' and 'unknown temperature unit' (units.py
lines 34-38), not the member names 'C', 'F', 'K'. -/
def temperatureFromString (s : List Char) : Option TempUnit :=
  if s = "°C".toList then some TempUnit.C
  else if s = "°F".toList then some TempUnit.F
  else if s = "°K".toList then some TempUnit.K
  else if s = "invalid".toList then some TempUnit.INVALID
  else if s = "unknown temperature unit".toList then some TempUnit.UNKNOWN
  else none

def digitVal (c : Char) : Option Nat :=
  if c.isDigit then some (c.toNat - 48) else none

def parseDigitsAux : List Char → Nat → Option Nat
  | [], acc => some acc
  | c :: cs, acc =>
    match digitVal c with
    | some d => parseDigitsAux cs (acc * 10 + d)
    | none => none

def parseDigits (s : List Char) : Option Nat :=
  match s with
  | [] => none
  | _ => parseDigitsAux s 0

/-- Split at the first occurrence of `ch`: the part before it, and the
part after it (`none` when `ch` does not occur). -/
def splitFirst (ch : Char) : List Char → List Char × Option (List Char)
  | [] => ([], none)
  | c :: cs =>
    if c = ch then ([], some cs)
    else
      match splitFirst ch cs with
      | (pre, rest) => (c :: pre, rest)

/-- Python `float(token)` on plain decimal notation: optional sign,
digits, optional '.' and fraction digits. -/
def parseFloat (s : List Char) : Option ℚ :=
  let unsigned : List Char → Option ℚ := fun u =>
    match splitFirst '.' u with
    | (ip, none) => (parseDigits ip).map (fun n => (n : ℚ))
    | (ip, some fp) =>
      if ip = [] ∧ fp = [] then none
      else
        match (if ip = [] then some 0 else parseDigits ip),
            (if fp = [] then some 0 else parseDigits fp) with
        | some n, some m => some ((n : ℚ) + (m : ℚ) / (10 : ℚ) ^ fp.length)
        | _, _ => none
  match s with
  | '-' :: rest => (unsigned rest).map (fun q => -q)
  | '+' :: rest => unsigned rest
  | _ => unsigned s

/-- `str.split(sep=' ')`: split on every single space, keeping empty
pieces. -/
def splitOnChar (ch : Char) : List Char → List (List Char)
  | [] => [[]]
  | c :: cs =>
    if c = ch then [] :: splitOnChar ch cs
    else
      match splitOnChar ch cs with
      | t :: ts => (c :: t) :: ts
      | [] => [[c]]

def isWS (c : Char) : Bool :=
  c = ' ' || c = '\t' || c = '\n' || c = '\r'

/-- Python `str.strip()`. -/
def trimWS (l : List Char) : List Char :=
  ((l.dropWhile isWS).reverse.dropWhile isWS).reverse

/-- The parser's usage line (`parser.format_usage()` with `prog=''` and
`add_help=False`). -/
def climUsage : List Char :=
  ("usage: command [--target-temperature TARGET_TEMPERATURE] " ++
    "[--target-temperature-unit TARGET_TEMPERATURE_UNIT]").toList

structure ClimArgs where
  command : ClimCommand
  target_temperature : ℚ
  target_temperature_unit : TempUnit
  deriving DecidableEq

/-- The argparse token loop over the three declared arguments: optionals
take the following token as their value and convert it with their
`type=` (a failed conversion is an `ArgumentError`), the single
positional is converted with `type=Command` and checked against
`choices`, anything else is unrecognized. -/
def climParseTokens : List (List Char) → Option ClimCommand → ℚ → TempUnit →
    Except (List Char) ClimArgs
  | [], none, _, _ =>
    .error "the following arguments are required: command".toList
  | [], some c, temp, u => .ok ⟨c, temp, u⟩
  | tok :: rest, cmd, temp, u =>
    if tok = "--target-temperature".toList then
      match rest with
      | [] =>
        .error "argument --target-temperature: expected one argument".toList
      | v :: rest2 =>
        match parseFloat v with
        | some q => climParseTokens rest2 cmd q u
        | none =>
          .error ("argument --target-temperature: invalid float value: ".toList
            ++ v)
    else if tok = "--target-temperature-unit".toList then
      match rest with
      | [] =>
        .error
          "argument --target-temperature-unit: expected one argument".toList
      | v :: rest2 =>
        match temperatureFromString v with
        | some tu => climParseTokens rest2 cmd temp tu
        | none =>
          .error
            ("argument --target-temperature-unit: invalid Temperature value: ".toList
              ++ v)
    else if tok.take 2 = "--".toList then
      .error ("unrecognized arguments: ".toList ++ tok)
    else
      match cmd with
      | none =>
        match commandFromString tok with
        | some c => climParseTokens rest (some c) temp u
        | none => .error ("argument command: invalid choice: ".toList ++ tok)
      | some _ => .error ("unrecognized arguments: ".toList ++ tok)

/-- The string branch of `ClimatizationStartStopCommand.value =`
(command_impl.py lines 45-70, 78-83): parse; on failure raise
`SetterError` whose message is the parser error followed by the usage
text; on success commit the structured value. -/
def climValueSet (input : List Char) : Except (List Char) ClimArgs :=
  match climParseTokens (splitOnChar ' ' (trimWS input)) none 25
      TempUnit.C with
  | .ok a => .ok a
  | .error e =>
    .error ("Invalid format for ClimatizationStartStopCommand: ".toList ++
      e ++ " ".toList ++ climUsage)

def isErrE {α : Type} (e : Except (List Char) α) : Bool :=
  match e with
  | .error _ => true
  | .ok _ => false

def errMsgE {α : Type} (e : Except (List Char) α) : List Char :=
  match e with
  | .error m => m
  | .ok _ => []

def okValE {α : Type} (e : Except (List Char) α) : Option α :=
  match e with
  | .ok a => some a
  | .error _ => none

set_option maxRecDepth 40000 in
/-- C7 (amended): with the unit token spelled as the enum value '°C',
the assignment parses and commits `{command := START,
target_temperature := 22, target_temperature_unit := C}`; the assignment
of "bogus" produces a setter error whose message carries the
`Invalid format for ClimatizationStartStopCommand:` prefix and the usage
text. -/
theorem climatization_command_value_parse :
    okValE (climValueSet
        "start --target-temperature 22 --target-temperature-unit °C".toList) =
      some ⟨ClimCommand.START, 22, TempUnit.C⟩ ∧
    isErrE (climValueSet "bogus".toList) = true ∧
    List.IsInfix climUsage (errMsgE (climValueSet "bogus".toList)) ∧
    List.IsInfix
        "Invalid format for ClimatizationStartStopCommand: ".toList
        (errMsgE (climValueSet "bogus".toList)) :=
  ⟨by decide, by decide, by decide, by decide⟩

set_option maxRecDepth 40000 in
/-- C7 counterexample: the spec's example passes the unit token 'C', but
`type=Temperature` converts by enum *value* and `Temperature.C` has
value '°C' (units.py line 34), so the spec's assignment raises the
setter error (with the invalid-value message and usage text) instead of
committing the structured value. -/
theorem climatization_unit_token_counterexample :
    isErrE (climValueSet
        "start --target-temperature 22 --target-temperature-unit C".toList) =
      true ∧
    okValE (climValueSet
        "start --target-temperature 22 --target-temperature-unit C".toList) ≠
      some ⟨ClimCommand.START, 22, TempUnit.C⟩ ∧
    List.IsInfix "invalid Temperature value: C".toList
      (errMsgE (climValueSet
        "start --target-temperature 22 --target-temperature-unit C".toList)) :=
  ⟨by decide, by decide, by decide⟩

/-! ## get_by_path (objects.py lines 257-290, attributes.py lines 541-576)

Nodes of the combined object/attribute tree carry an `id` string and an
`isAttr` kind; `children` are in construction order, as before.
`GenericObject.get_by_path` and `GenericAttribute.get_by_path` are one
recursion: the object version matches a relative segment against the
object's *own* children, the attribute version against the children of
its *parent* (its siblings).  When an attribute resolves a segment with
no remaining path it returns the found child directly (code line 571);
this is modelled as the recursive call on the empty remainder, which
returns the child unchanged. -/

structure PTree where
  n : Nat
  parent : Nat → Option Nat
  id : Nat → List Char
  isAttr : Nat → Bool
  hpar : ∀ i p, parent i = some p → p < i
  hdom : ∀ i, n ≤ i → parent i = none

def childrenP (t : PTree) (i : Nat) : List Nat :=
  (List.range t.n).filter (fun j => t.parent j == some i)

/-- The `for child in children: if child.id == seg` loop: the first child
whose id equals the segment. -/
def findChild (t : PTree) (i : Nat) (seg : List Char) : Option Nat :=
  (childrenP t i).find? (fun c => t.id c == seg)

/-- `get_root()`: climb parents to the top. -/
def rootOf (t : PTree) (i : Nat) : Nat :=
  match h : t.parent i with
  | some p => rootOf t p
  | none => i
termination_by i
decreasing_by exact t.hpar i p h

theorem splitFirst_snd_some_length {ch : Char} :
    ∀ (l rest : List Char), (splitFirst ch l).2 = some rest →
      rest.length < l.length := by
  intro l
  induction l with
  | nil =>
    intro rest h
    simp [splitFirst] at h
  | cons c cs ih =>
    intro rest h
    rw [splitFirst] at h
    by_cases hc : c = ch
    · rw [if_pos hc] at h
      dsimp only at h
      injection h with h
      subst h
      exact Nat.lt_succ_self _
    · rw [if_neg hc] at h
      dsimp only at h
      exact Nat.lt_succ_of_lt (ih rest h)

theorem dropWhile_length_le (q : Char → Bool) :
    ∀ l : List Char, (l.dropWhile q).length ≤ l.length := by
  intro l
  induction l with
  | nil => simp [List.dropWhile]
  | cons c cs ih =>
    rw [List.dropWhile]
    by_cases hc : q c
    · simp only [hc]
      exact Nat.le_succ_of_le ih
    · simp only [hc]
      simp

theorem dropSlash_length {p : List Char} (h : p.head? = some '/') :
    (p.dropWhile (fun c => c = '/')).length < p.length := by
  cases p with
  | nil => cases h
  | cons c cs =>
    injection h with h
    rw [List.dropWhile_cons_of_pos (by simp [h])]
    exact Nat.lt_succ_of_le (dropWhile_length_le _ cs)

/-- `get_by_path(address_string)` on node `i`, translated from the two
Python methods (objects.py lines 257-290, attributes.py lines 541-576).
`none` is the failure sentinel `False`. -/
def getByPath (t : PTree) (i : Nat) (p : List Char) : Option Nat :=
  match p with
  | [] => some i
  | c :: cs =>
    if t.isAttr i then
      if c :: cs = ['.', '.'] then t.parent i
      else if c = '/' then getByPath t (rootOf t i) cs
      else
        match t.parent i with
        | some par =>
          (match findChild t par (splitFirst '/' (c :: cs)).1 with
            | some ch =>
              getByPath t ch ((splitFirst '/' (c :: cs)).2.getD [])
            | none => none)
        | none => none
    else
      if c :: cs = ['.', '.'] ∧ (t.parent i).isSome then t.parent i
      else if hc : c = '/' then
        getByPath t (rootOf t i) ((c :: cs).dropWhile (fun x => x = '/'))
      else
        match findChild t i (splitFirst '/' (c :: cs)).1 with
        | some ch => getByPath t ch ((splitFirst '/' (c :: cs)).2.getD [])
        | none => none
termination_by p.length
decreasing_by
  · exact Nat.lt_succ_self _
  · cases h : (splitFirst '/' (c :: cs)).2 with
    | none => simp
    | some r =>
      simpa [h] using splitFirst_snd_some_length (c :: cs) r h
  · exact dropSlash_length (by simp [hc])
  · cases h : (splitFirst '/' (c :: cs)).2 with
    | none => simp
    | some r =>
      simpa [h] using splitFirst_snd_some_length (c :: cs) r h

/-- The resolution rule as the spec's sentence reads, defined from the
spec's words for comparison with `getByPath` (which is translated from
the code): `''` → self; `'..'` → parent, or the failure sentinel at the
root; a leading `'/'` → resolve from the tree's root; otherwise the
segment before the first `/` is matched against the node's *direct
children* and resolution recurses on the remainder; no match yields the
failure sentinel. -/
def getByPathSpec (t : PTree) (i : Nat) (p : List Char) : Option Nat :=
  match p with
  | [] => some i
  | c :: cs =>
    if c :: cs = ['.', '.'] then t.parent i
    else if hc : c = '/' then
      getByPathSpec t (rootOf t i) ((c :: cs).dropWhile (fun x => x = '/'))
    else
      match findChild t i (splitFirst '/' (c :: cs)).1 with
      | some ch => getByPathSpec t ch ((splitFirst '/' (c :: cs)).2.getD [])
      | none => none
termination_by p.length
decreasing_by
  · exact dropSlash_length (by simp [hc])
  · cases h : (splitFirst '/' (c :: cs)).2 with
    | none => simp
    | some r =>
      simpa [h] using splitFirst_snd_some_length (c :: cs) r h

def mkPTree (rows : List (Option Nat × List Char × Bool))
    (h : parentsOK (rows.map (fun r => r.1)) = true) : PTree where
  n := rows.length
  parent := fun i => (rows.map (fun r => r.1)).getD i none
  id := fun i => (rows.map (fun r => r.2.1)).getD i []
  isAttr := fun i => (rows.map (fun r => r.2.2)).getD i false
  hpar := by
    intro i p hp
    dsimp only at hp
    by_cases hi : i < rows.length
    · have h2 := (List.all_eq_true.mp h) i
        (List.mem_range.mpr (by simpa using hi))
      rw [hp] at h2
      simpa using h2
    · have hnone : (rows.map (fun r => r.1)).getD i none = none := by
        simp [List.getD,
          List.getElem?_eq_none (by simpa using Nat.le_of_not_lt hi)]
      rw [hnone] at hp
      cases hp
  hdom := by
    intro i hi
    simp [List.getD, List.getElem?_eq_none (by simpa using hi)]

/-- A root object `r` with two attribute children `a` (node 1) and `b`
(node 2). -/
def pt3 : PTree :=
  mkPTree [(none, "r".toList, false), (some 0, "a".toList, true),
    (some 0, "b".toList, true)] (by decide)

/-- A root object `r` with one object child whose id is the literal
string `..`. -/
def ptdots : PTree :=
  mkPTree [(none, "r".toList, false), (some 0, "..".toList, false)]
    (by decide)

theorem getByPath_nil (t : PTree) (i : Nat) : getByPath t i [] = some i := by
  rw [getByPath]

theorem getByPath_dotdot_parent {t : PTree} {i p : Nat}
    (h : t.parent i = some p) : getByPath t i ['.', '.'] = some p := by
  rw [getByPath]
  by_cases hA : t.isAttr i
  · rw [if_pos hA, if_pos rfl, h]
  · rw [if_neg hA, if_pos ⟨rfl, by rw [h]; rfl⟩, h]

theorem getByPath_attr_dotdot_root {t : PTree} {i : Nat}
    (hA : t.isAttr i = true) (h : t.parent i = none) :
    getByPath t i ['.', '.'] = none := by
  rw [getByPath, if_pos hA, if_pos rfl, h]

theorem getByPath_obj_abs {t : PTree} {i : Nat} {c : Char} {cs : List Char}
    (hA : t.isAttr i = false) (hc : c = '/') :
    getByPath t i (c :: cs) =
      getByPath t (rootOf t i) ((c :: cs).dropWhile (fun x => x = '/')) := by
  rw [getByPath, if_neg (by simp [hA]), if_neg (by simp [hc]), dif_pos hc]

theorem getByPath_attr_abs {t : PTree} {i : Nat} {cs : List Char}
    (hA : t.isAttr i = true) :
    getByPath t i ('/' :: cs) = getByPath t (rootOf t i) cs := by
  rw [getByPath, if_pos hA, if_neg (by simp), if_pos rfl]

theorem getByPath_obj_rel {t : PTree} {i : Nat} {c : Char} {cs : List Char}
    (hA : t.isAttr i = false) (hnd : c :: cs ≠ ['.', '.'])
    (hc : c ≠ '/') :
    getByPath t i (c :: cs) =
      match findChild t i (splitFirst '/' (c :: cs)).1 with
      | some ch => getByPath t ch ((splitFirst '/' (c :: cs)).2.getD [])
      | none => none := by
  rw [getByPath, if_neg (by simp [hA]),
    if_neg (by intro hcon; exact hnd hcon.1), dif_neg hc]

theorem getByPath_obj_dotdot_root {t : PTree} {i : Nat}
    (hA : t.isAttr i = false) (h : t.parent i = none) :
    getByPath t i ['.', '.'] =
      match findChild t i (splitFirst '/' ['.', '.']).1 with
      | some ch => getByPath t ch ((splitFirst '/' ['.', '.']).2.getD [])
      | none => none := by
  rw [getByPath, if_neg (by simp [hA]), if_neg (by rw [h]; simp),
    dif_neg (by decide)]

theorem getByPath_attr_rel {t : PTree} {i par : Nat} {c : Char}
    {cs : List Char} (hA : t.isAttr i = true) (hnd : c :: cs ≠ ['.', '.'])
    (hc : c ≠ '/') (hp : t.parent i = some par) :
    getByPath t i (c :: cs) =
      match findChild t par (splitFirst '/' (c :: cs)).1 with
      | some ch => getByPath t ch ((splitFirst '/' (c :: cs)).2.getD [])
      | none => none := by
  rw [getByPath, if_pos hA, if_neg hnd, if_neg hc]
  simp only [hp]

theorem getByPath_pt3_ab_eval :
    getByPath pt3 0 ('a' :: '/' :: 'b' :: []) = some 2 := by
  rw [getByPath_obj_rel (by decide) (by decide) (by decide),
    (by decide : findChild pt3 0 (splitFirst '/' ('a' :: '/' :: 'b' :: [])).1 =
      some 1)]
  show getByPath pt3 1 ((splitFirst '/' ('a' :: '/' :: 'b' :: [])).2.getD []) =
    some 2
  rw [(by decide : (splitFirst '/' ('a' :: '/' :: 'b' :: [])).2.getD [] =
    ['b'])]
  rw [getByPath_attr_rel (by decide) (by decide) (by decide)
    (by decide : pt3.parent 1 = some 0),
    (by decide : findChild pt3 0 (splitFirst '/' (['b'] : List Char)).1 =
      some 2)]
  show getByPath pt3 2 ((splitFirst '/' (['b'] : List Char)).2.getD []) =
    some 2
  rw [(by decide : (splitFirst '/' (['b'] : List Char)).2.getD [] =
    ([] : List Char))]
  exact getByPath_nil pt3 2

theorem getByPathSpec_pt3_ab_eval :
    getByPathSpec pt3 0 ('a' :: '/' :: 'b' :: []) = none := by
  rw [getByPathSpec, if_neg (by decide), dif_neg (by decide),
    (by decide : findChild pt3 0 (splitFirst '/' ('a' :: '/' :: 'b' :: [])).1 =
      some 1)]
  show getByPathSpec pt3 1
    ((splitFirst '/' ('a' :: '/' :: 'b' :: [])).2.getD []) = none
  rw [(by decide : (splitFirst '/' ('a' :: '/' :: 'b' :: [])).2.getD [] =
    ['b'])]
  rw [getByPathSpec, if_neg (by decide), dif_neg (by decide),
    (by decide : findChild pt3 1 (splitFirst '/' (['b'] : List Char)).1 =
      (none : Option Nat))]

theorem getByPath_ptdots_eval : getByPath ptdots 0 ['.', '.'] = some 1 := by
  rw [getByPath_obj_dotdot_root (by decide) (by decide),
    (by decide :
      findChild ptdots 0 (splitFirst '/' (['.', '.'] : List Char)).1 =
        some 1)]
  show getByPath ptdots 1
    ((splitFirst '/' (['.', '.'] : List Char)).2.getD []) = some 1
  rw [(by decide : (splitFirst '/' (['.', '.'] : List Char)).2.getD [] =
    ([] : List Char))]
  exact getByPath_nil ptdots 1

theorem getByPathSpec_ptdots_eval :
    getByPathSpec ptdots 0 ['.', '.'] = none := by
  rw [getByPathSpec, if_pos rfl]
  decide

/-- C8 (amended): `get_by_path` on an object: `''` resolves to the node
itself; `'..'` resolves to the parent when there is one; at the root,
`'..'` is *not* answered with the failure sentinel but falls through to
ordinary child matching (so a child whose id is literally `..` is
found); a leading `'/'` resolves from the tree's root after stripping
all leading slashes; otherwise the segment before the first `/` is
matched against the direct children and resolution recurses on the
remainder, `none` (the sentinel `False`) when no child matches.  On an
*attribute*, however, a relative segment is matched against the children
of the attribute's parent — its siblings — not against the attribute's
own (empty) child list; `'..'` at a parentless attribute yields the
sentinel.  The function is total: failure is the sentinel, never an
exception. -/
theorem get_by_path_resolution :
    (∀ (t : PTree) (i : Nat), getByPath t i [] = some i) ∧
    (∀ (t : PTree) (i p : Nat), t.parent i = some p →
      getByPath t i ['.', '.'] = some p) ∧
    (∀ (t : PTree) (i : Nat), t.isAttr i = true → t.parent i = none →
      getByPath t i ['.', '.'] = none) ∧
    (∀ (t : PTree) (i : Nat) (cs : List Char), t.isAttr i = false →
      getByPath t i ('/' :: cs) =
        getByPath t (rootOf t i)
          (('/' :: cs).dropWhile (fun x => x = '/'))) ∧
    (∀ (t : PTree) (i : Nat) (c : Char) (cs : List Char),
      t.isAttr i = false → c :: cs ≠ ['.', '.'] → c ≠ '/' →
      getByPath t i (c :: cs) =
        match findChild t i (splitFirst '/' (c :: cs)).1 with
        | some ch => getByPath t ch ((splitFirst '/' (c :: cs)).2.getD [])
        | none => none) ∧
    (∀ (t : PTree) (i : Nat), t.isAttr i = false → t.parent i = none →
      getByPath t i ['.', '.'] =
        match findChild t i (splitFirst '/' ['.', '.']).1 with
        | some ch => getByPath t ch ((splitFirst '/' ['.', '.']).2.getD [])
        | none => none) ∧
    (∀ (t : PTree) (i par : Nat) (c : Char) (cs : List Char),
      t.isAttr i = true → c :: cs ≠ ['.', '.'] → c ≠ '/' →
      t.parent i = some par →
      getByPath t i (c :: cs) =
        match findChild t par (splitFirst '/' (c :: cs)).1 with
        | some ch => getByPath t ch ((splitFirst '/' (c :: cs)).2.getD [])
        | none => none) :=
  ⟨getByPath_nil, fun _ _ _ h => getByPath_dotdot_parent h,
    fun _ _ hA h => getByPath_attr_dotdot_root hA h,
    fun _ _ _ hA => getByPath_obj_abs hA rfl,
    fun _ _ _ _ hA hnd hc => getByPath_obj_rel hA hnd hc,
    fun _ _ hA h => getByPath_obj_dotdot_root hA h,
    fun _ _ _ _ _ hA hnd hc hp => getByPath_attr_rel hA hnd hc hp⟩

theorem get_by_path_resolution_witness :
    pt3.parent 1 = some 0 ∧ getByPath pt3 1 ['.', '.'] = some 0 :=
  ⟨by decide, get_by_path_resolution.2.1 pt3 1 0 (by decide)⟩

/-- C8 counterexample: in `pt3` (root object `r` with attribute children
`a` and `b`), `get_by_path('a/b')` from the root returns node 2 — `b` is
found among the *siblings* of attribute `a`, although `a` has no
children — where the spec's child-matching rule yields the failure
sentinel.  And in `ptdots` (root with an object child whose id is the
literal string `..`), `get_by_path('..')` at the parentless root returns
that child instead of the spec's failure sentinel. -/
theorem get_by_path_spec_counterexample :
    getByPath pt3 0 ('a' :: '/' :: 'b' :: []) = some 2 ∧
    getByPathSpec pt3 0 ('a' :: '/' :: 'b' :: []) = none ∧
    pt3.isAttr 1 = true ∧ childrenP pt3 1 = [] ∧
    getByPath ptdots 0 ['.', '.'] = some 1 ∧
    getByPathSpec ptdots 0 ['.', '.'] = none ∧
    ptdots.parent 0 = none :=
  ⟨getByPath_pt3_ab_eval, getByPathSpec_pt3_ab_eval, by decide, by decide,
    getByPath_ptdots_eval, getByPathSpec_ptdots_eval, by decide⟩
